import Mathlib

/-!
Verification of the mcper install orchestration engine.

This file shallowly embeds the core of the mcper package manager
(`internal/service`, `internal/registry`, `internal/state`, `internal/adapters`)
in Lean 4 and proves the specified properties about it.

Modelling conventions:
* Go `map[string]T` values are modelled as association lists
  `List (String × T)`; iteration order of a Go map is unspecified, so the
  association list fixes one iteration order and theorems quantify over it.
* Fallible Go functions returning `(T, error)` are modelled as `Except E T`
  with a structured error type mirroring the distinct `fmt.Errorf` messages.
* File-system state is passed explicitly (a config file is an optional
  decoded document value).
* Wall-clock times (`time.Now`) are threaded as explicit `Nat` parameters.
-/

/-- The stdio transport constant of the model package. -/
def ServerTransportSTDIO : String := "stdio"

/-- `model.ServerTransportHTTP` from internal/model. -/
def ServerTransportHTTP : String := "http"

/-- `model.MCPServerSpec` from internal/model. -/
structure MCPServerSpec where
  transport : String
  command : String := ""
  args : List String := []
  url : String := ""
  envRequired : List String := []
deriving DecidableEq, Repr

/-- Association-list lookup, modelling Go map indexing `m[k]`. -/
def alookup {α : Type} : List (String × α) → String → Option α
  | [], _ => none
  | (k, v) :: rest, key => if k = key then some v else alookup rest key

/-- Association-list insert-or-overwrite, modelling Go map assignment `m[k] = v`. -/
def ainsert {α : Type} : List (String × α) → String → α → List (String × α)
  | [], key, v => [(key, v)]
  | (k, w) :: rest, key, v =>
    if k = key then (key, v) :: rest else (k, w) :: ainsert rest key v

/-- Association-list key removal, modelling Go `delete(m, k)`. -/
def aremove {α : Type} (m : List (String × α)) (key : String) : List (String × α) :=
  m.filter (fun p => p.1 ≠ key)

/-- `canonicalKey` from internal/service/conflict.go: transport-qualified
normalization of a server spec (`http:<url>` or `stdio:<command> <args...>`). -/
def canonicalKey (spec : MCPServerSpec) : String :=
  if spec.transport = ServerTransportHTTP then
    "http:" ++ spec.url
  else
    "stdio:" ++ String.intercalate " " (spec.command :: spec.args)

/-- `specsEqual` from internal/service/conflict.go. -/
def specsEqual (a b : MCPServerSpec) : Bool :=
  canonicalKey a == canonicalKey b

/-- `service.ConflictKind` from internal/service/conflict.go. -/
inductive ConflictKind where
  | nameExists
  | duplicateSpec
deriving DecidableEq, Repr

/-- `service.ServerConflict` from internal/service/conflict.go. -/
structure ServerConflict where
  target : String
  serverName : String
  kind : ConflictKind
  existingName : String := ""
deriving DecidableEq, Repr

/-- `service.DiffOp` from internal/service/conflict.go. -/
inductive DiffOp where
  | add
  | modify
  | noop
deriving DecidableEq, Repr

/-- `service.ServerDiff` from internal/service/conflict.go. -/
structure ServerDiff where
  target : String
  serverName : String
  op : DiffOp
  before : Option MCPServerSpec := none
  after : MCPServerSpec
deriving DecidableEq, Repr

/-- `service.InstallPlan` from internal/service/conflict.go. -/
structure InstallPlan where
  conflicts : List ServerConflict
  diffs : List ServerDiff
deriving DecidableEq, Repr

/-- `InstallPlan.HasConflicts` from internal/service/conflict.go. -/
def InstallPlan.hasConflicts (p : InstallPlan) : Bool :=
  p.conflicts.length > 0

/-- `InstallPlan.HasMeaningfulChanges` from internal/service/conflict.go. -/
def InstallPlan.hasMeaningfulChanges (p : InstallPlan) : Bool :=
  p.diffs.any (fun d => d.op ≠ DiffOp.noop)

/-- `InstallPlan.NeedsPrompt` from internal/service/conflict.go. -/
def InstallPlan.needsPrompt (p : InstallPlan) : Bool :=
  p.hasConflicts || p.hasMeaningfulChanges

/-- The reverse index built at the top of the per-target loop of
`buildInstallPlan`: canonical key -> existing server name
(`keyToName[canonicalKey(spec)] = name` for each existing entry, in
iteration order, later entries overwriting earlier ones). -/
def keyToNameIndex (existing : List (String × MCPServerSpec)) : List (String × String) :=
  existing.foldl (fun acc p => ainsert acc (canonicalKey p.2) p.1) []

/-- The body of the inner `for serverName, incomingSpec := range incoming` loop
of `buildInstallPlan`: the diffs and conflicts appended for one incoming pair. -/
def planServer (target : String) (existing : List (String × MCPServerSpec))
    (keyToName : List (String × String)) (serverName : String)
    (incomingSpec : MCPServerSpec) : List ServerDiff × List ServerConflict :=
  match alookup existing serverName with
  | some existingSpec =>
    if specsEqual existingSpec incomingSpec then
      ([{ target := target, serverName := serverName, op := DiffOp.noop,
          before := some existingSpec, after := incomingSpec }], [])
    else
      ([{ target := target, serverName := serverName, op := DiffOp.modify,
          before := some existingSpec, after := incomingSpec }],
       [{ target := target, serverName := serverName, kind := ConflictKind.nameExists }])
  | none =>
    match alookup keyToName (canonicalKey incomingSpec) with
    | some existingName =>
      ([{ target := target, serverName := serverName, op := DiffOp.add,
          after := incomingSpec }],
       [{ target := target, serverName := serverName, kind := ConflictKind.duplicateSpec,
          existingName := existingName }])
    | none =>
      ([{ target := target, serverName := serverName, op := DiffOp.add,
          after := incomingSpec }], [])

/-- The inner loop of `buildInstallPlan` over the incoming server map. -/
def planIncoming (target : String) (existing : List (String × MCPServerSpec))
    (keyToName : List (String × String)) :
    List (String × MCPServerSpec) → List ServerDiff × List ServerConflict
  | [] => ([], [])
  | (serverName, spec) :: rest =>
    let dc := planServer target existing keyToName serverName spec
    let rest2 := planIncoming target existing keyToName rest
    (dc.1 ++ rest2.1, dc.2 ++ rest2.2)

/-- One iteration of the outer `for _, target := range targets` loop of
`buildInstallPlan`. -/
def planTarget (target : String) (existing : List (String × MCPServerSpec))
    (incoming : List (String × MCPServerSpec)) : List ServerDiff × List ServerConflict :=
  planIncoming target existing (keyToNameIndex existing) incoming

/-- The outer loop of `buildInstallPlan`: for each target list the existing
servers via its adapter (propagating the first listing error) and accumulate
diffs and conflicts. -/
def buildPlanLoop (adapterList : String → Except String (List (String × MCPServerSpec)))
    (incoming : List (String × MCPServerSpec)) :
    List String → Except String (List ServerDiff × List ServerConflict)
  | [] => Except.ok ([], [])
  | target :: rest =>
    match adapterList target with
    | Except.error e => Except.error e
    | Except.ok existing =>
      match buildPlanLoop adapterList incoming rest with
      | Except.error e => Except.error e
      | Except.ok rest2 =>
        let dc := planTarget target existing incoming
        Except.ok (dc.1 ++ rest2.1, dc.2 ++ rest2.2)

/-- Lexicographic (target, serverName) order used by the two `sort.Slice`
calls at the end of `buildInstallPlan`. -/
def planPairLE (a b : String × String) : Prop :=
  a.1 < b.1 ∨ (a.1 = b.1 ∧ a.2 ≤ b.2)

instance : DecidableRel planPairLE := by
  intro a b
  unfold planPairLE
  infer_instance

/-- Order on diffs for the final sort of `buildInstallPlan`. -/
def diffLE (a b : ServerDiff) : Prop :=
  planPairLE (a.target, a.serverName) (b.target, b.serverName)

instance : DecidableRel diffLE := by
  intro a b
  unfold diffLE
  infer_instance

/-- Order on conflicts for the final sort of `buildInstallPlan`. -/
def conflictLE (a b : ServerConflict) : Prop :=
  planPairLE (a.target, a.serverName) (b.target, b.serverName)

instance : DecidableRel conflictLE := by
  intro a b
  unfold conflictLE
  infer_instance

/-- `buildInstallPlan` from internal/service/conflict.go: accumulate per-target
diffs and conflicts, then sort each deterministically by (target, server name). -/
def buildInstallPlan (targets : List String)
    (adapterList : String → Except String (List (String × MCPServerSpec)))
    (incoming : List (String × MCPServerSpec)) : Except String InstallPlan :=
  match buildPlanLoop adapterList incoming targets with
  | Except.error e => Except.error e
  | Except.ok dc =>
    Except.ok
      { diffs := dc.1.insertionSort diffLE
        conflicts := dc.2.insertionSort conflictLE }

/-! ### Association-list and key-index lemmas -/

theorem alookup_ainsert {α : Type} (m : List (String × α)) (key : String) (v : α)
    (k : String) :
    alookup (ainsert m key v) k = if key = k then some v else alookup m k := by
  induction m with
  | nil => simp [ainsert, alookup]
  | cons p rest ih =>
    obtain ⟨k', w⟩ := p
    by_cases h : k' = key
    · simp only [ainsert, if_pos h, alookup]
      by_cases h2 : key = k
      · simp [h2]
      · have h3 : ¬ k' = k := by
          rw [h]; exact h2
        simp [h2, h3]
    · simp only [ainsert, if_neg h, alookup, ih]
      by_cases h2 : k' = k
      · have h3 : ¬ key = k := fun hh => h (h2.trans hh.symm)
        simp [h2, h3]
      · simp [h2]

theorem keyToNameIndex_go_some (ex : List (String × MCPServerSpec))
    (acc : List (String × String)) (k : String) (en : String)
    (h : alookup (ex.foldl (fun acc p => ainsert acc (canonicalKey p.2) p.1) acc) k
         = some en) :
    (∃ s', (en, s') ∈ ex ∧ canonicalKey s' = k) ∨ alookup acc k = some en := by
  induction ex generalizing acc with
  | nil => exact Or.inr h
  | cons p rest ih =>
    simp only [List.foldl_cons] at h
    rcases ih _ h with h1 | h2
    · obtain ⟨s', hmem, hk⟩ := h1
      exact Or.inl ⟨s', List.mem_cons_of_mem _ hmem, hk⟩
    · rw [alookup_ainsert] at h2
      by_cases hk : canonicalKey p.2 = k
      · rw [if_pos hk] at h2
        refine Or.inl ⟨p.2, ?_, hk⟩
        have : p = (en, p.2) := by
          cases p; cases h2; rfl
        rw [← this]
        exact List.mem_cons_self _ _
      · rw [if_neg hk] at h2
        exact Or.inr h2

theorem keyToNameIndex_some (ex : List (String × MCPServerSpec)) (k : String)
    (en : String) (h : alookup (keyToNameIndex ex) k = some en) :
    ∃ s', (en, s') ∈ ex ∧ canonicalKey s' = k := by
  rcases keyToNameIndex_go_some ex [] k en h with h1 | h2
  · exact h1
  · simp [alookup] at h2

theorem keyToNameIndex_go_none (ex : List (String × MCPServerSpec))
    (acc : List (String × String)) (k : String)
    (h : alookup (ex.foldl (fun acc p => ainsert acc (canonicalKey p.2) p.1) acc) k
         = none) :
    alookup acc k = none ∧ ∀ p ∈ ex, canonicalKey p.2 ≠ k := by
  induction ex generalizing acc with
  | nil => exact ⟨h, by simp⟩
  | cons q rest ih =>
    simp only [List.foldl_cons] at h
    obtain ⟨hacc, hrest⟩ := ih _ h
    rw [alookup_ainsert] at hacc
    by_cases hc : canonicalKey q.2 = k
    · rw [if_pos hc] at hacc
      exact absurd hacc (by simp)
    · rw [if_neg hc] at hacc
      refine ⟨hacc, ?_⟩
      intro p hp
      rcases List.mem_cons.mp hp with h1 | h2
      · rw [h1]; exact hc
      · exact hrest p h2

/-! ### Shape lemmas for the planner -/

/-- Filter selecting the diffs for a given (target, server name) pair. -/
def diffAt (t n : String) (d : ServerDiff) : Bool :=
  d.target == t && d.serverName == n

/-- Filter selecting the conflicts for a given (target, server name) pair. -/
def confAt (t n : String) (c : ServerConflict) : Bool :=
  c.target == t && c.serverName == n

theorem planServer_diffs_shape (t : String) (ex : List (String × MCPServerSpec))
    (kidx : List (String × String)) (n : String) (s : MCPServerSpec) :
    ∃ d, (planServer t ex kidx n s).1 = [d] ∧ d.target = t ∧ d.serverName = n := by
  unfold planServer
  cases alookup ex n with
  | some s' =>
    by_cases h : specsEqual s' s
    · refine ⟨{ target := t, serverName := n, op := DiffOp.noop,
                before := some s', after := s }, ?_, rfl, rfl⟩
      simp [h]
    · refine ⟨{ target := t, serverName := n, op := DiffOp.modify,
                before := some s', after := s }, ?_, rfl, rfl⟩
      simp [h]
  | none =>
    cases alookup kidx (canonicalKey s) with
    | some en =>
      exact ⟨{ target := t, serverName := n, op := DiffOp.add, after := s }, by simp, rfl, rfl⟩
    | none =>
      exact ⟨{ target := t, serverName := n, op := DiffOp.add, after := s }, by simp, rfl, rfl⟩

theorem planServer_conflicts_shape (t : String) (ex : List (String × MCPServerSpec))
    (kidx : List (String × String)) (n : String) (s : MCPServerSpec) :
    ∀ c ∈ (planServer t ex kidx n s).2, c.target = t ∧ c.serverName = n := by
  unfold planServer
  cases alookup ex n with
  | some s' =>
    by_cases h : specsEqual s' s
    · simp [h]
    · simp [h]
  | none =>
    cases alookup kidx (canonicalKey s) with
    | some en => simp
    | none => simp

theorem filter_planServer_diffs_self (t : String) (ex : List (String × MCPServerSpec))
    (kidx : List (String × String)) (n : String) (s : MCPServerSpec) :
    ((planServer t ex kidx n s).1.filter (diffAt t n)) = (planServer t ex kidx n s).1 := by
  obtain ⟨d, hd, ht, hn⟩ := planServer_diffs_shape t ex kidx n s
  rw [hd]
  simp [diffAt, ht, hn]

theorem filter_planServer_diffs_ne (t' t : String) (ex : List (String × MCPServerSpec))
    (kidx : List (String × String)) (n' n : String) (s : MCPServerSpec)
    (h : t' ≠ t ∨ n' ≠ n) :
    ((planServer t' ex kidx n' s).1.filter (diffAt t n)) = [] := by
  obtain ⟨d, hd, ht, hn⟩ := planServer_diffs_shape t' ex kidx n' s
  rw [hd]
  rcases h with h | h
  · simp [diffAt, ht, h]
  · simp [diffAt, hn, h]

theorem filter_planServer_conflicts_self (t : String) (ex : List (String × MCPServerSpec))
    (kidx : List (String × String)) (n : String) (s : MCPServerSpec) :
    ((planServer t ex kidx n s).2.filter (confAt t n)) = (planServer t ex kidx n s).2 := by
  apply List.filter_eq_self.mpr
  intro c hc
  obtain ⟨ht, hn⟩ := planServer_conflicts_shape t ex kidx n s c hc
  simp [confAt, ht, hn]

theorem filter_planServer_conflicts_ne (t' t : String) (ex : List (String × MCPServerSpec))
    (kidx : List (String × String)) (n' n : String) (s : MCPServerSpec)
    (h : t' ≠ t ∨ n' ≠ n) :
    ((planServer t' ex kidx n' s).2.filter (confAt t n)) = [] := by
  apply List.filter_eq_nil_iff.mpr
  intro c hc
  obtain ⟨ht, hn⟩ := planServer_conflicts_shape t' ex kidx n' s c hc
  rcases h with h | h
  · simp [confAt, ht, h]
  · simp [confAt, hn, h]

theorem filter_planIncoming_nil (t' t : String) (ex : List (String × MCPServerSpec))
    (kidx : List (String × String)) (inc : List (String × MCPServerSpec)) (n : String)
    (h : t' ≠ t ∨ n ∉ inc.map Prod.fst) :
    ((planIncoming t' ex kidx inc).1.filter (diffAt t n)) = [] ∧
    ((planIncoming t' ex kidx inc).2.filter (confAt t n)) = [] := by
  induction inc with
  | nil => simp [planIncoming]
  | cons p rest ih =>
    obtain ⟨m, u⟩ := p
    have hrest : t' ≠ t ∨ n ∉ rest.map Prod.fst := by
      rcases h with h | h
      · exact Or.inl h
      · right
        intro hmem
        exact h (by simp [hmem])
    have hhead : t' ≠ t ∨ m ≠ n := by
      rcases h with h | h
      · exact Or.inl h
      · right
        intro hmn
        exact h (by simp [hmn])
    obtain ⟨ih1, ih2⟩ := ih hrest
    simp only [planIncoming, List.filter_append, ih1, ih2,
      filter_planServer_diffs_ne t' t ex kidx m n u hhead,
      filter_planServer_conflicts_ne t' t ex kidx m n u hhead,
      List.append_nil]
    exact ⟨by first | rfl | trivial, by first | rfl | trivial⟩

theorem filter_planIncoming (t : String) (ex : List (String × MCPServerSpec))
    (kidx : List (String × String)) (inc : List (String × MCPServerSpec))
    (n : String) (s : MCPServerSpec)
    (hnodup : (inc.map Prod.fst).Nodup) (hmem : (n, s) ∈ inc) :
    ((planIncoming t ex kidx inc).1.filter (diffAt t n)) = (planServer t ex kidx n s).1 ∧
    ((planIncoming t ex kidx inc).2.filter (confAt t n)) = (planServer t ex kidx n s).2 := by
  induction inc with
  | nil => simp at hmem
  | cons p rest ih =>
    obtain ⟨m, u⟩ := p
    simp only [List.map_cons, List.nodup_cons] at hnodup
    obtain ⟨hm, hrestN⟩ := hnodup
    rcases List.mem_cons.mp hmem with h1 | h2
    · obtain ⟨rfl, rfl⟩ := Prod.mk.injEq .. ▸ h1
      have hnil := filter_planIncoming_nil t t ex kidx rest n (Or.inr hm)
      simp only [planIncoming, List.filter_append, hnil.1, hnil.2,
        filter_planServer_diffs_self, filter_planServer_conflicts_self,
        List.append_nil]
      exact ⟨by first | rfl | trivial, by first | rfl | trivial⟩
    · have hmn : m ≠ n := by
        intro hmn
        subst hmn
        exact hm (by simpa using List.mem_map_of_mem Prod.fst h2)
      obtain ⟨ih1, ih2⟩ := ih hrestN h2
      simp only [planIncoming, List.filter_append, ih1, ih2,
        filter_planServer_diffs_ne t t ex kidx m n u (Or.inr hmn),
        filter_planServer_conflicts_ne t t ex kidx m n u (Or.inr hmn),
        List.nil_append]
      exact ⟨by first | rfl | trivial, by first | rfl | trivial⟩

theorem buildPlanLoop_filter_nil
    (adapterList : String → Except String (List (String × MCPServerSpec)))
    (incoming : List (String × MCPServerSpec)) (ts : List String)
    (t n : String) (ht : t ∉ ts) (ds : List ServerDiff) (cs : List ServerConflict)
    (h : buildPlanLoop adapterList incoming ts = Except.ok (ds, cs)) :
    ds.filter (diffAt t n) = [] ∧ cs.filter (confAt t n) = [] := by
  induction ts generalizing ds cs with
  | nil =>
    simp only [buildPlanLoop] at h
    cases h
    simp
  | cons t' rest ih =>
    simp only [buildPlanLoop] at h
    cases h1 : adapterList t' with
    | error e => rw [h1] at h; cases h
    | ok ex =>
      rw [h1] at h
      cases h2 : buildPlanLoop adapterList incoming rest with
      | error e => rw [h2] at h; cases h
      | ok rest2 =>
        rw [h2] at h
        cases h
        have htne : t' ≠ t := fun hh => ht (hh ▸ List.mem_cons_self t' rest)
        have htrest : t ∉ rest := fun hh => ht (List.mem_cons_of_mem _ hh)
        obtain ⟨ih1, ih2⟩ := ih htrest rest2.1 rest2.2 (by rw [h2])
        obtain ⟨hn1, hn2⟩ :=
          filter_planIncoming_nil t' t ex (keyToNameIndex ex) incoming n (Or.inl htne)
        constructor
        · simp only [List.filter_append, ih1, planTarget, hn1, List.append_nil]
        · simp only [List.filter_append, ih2, planTarget, hn2, List.append_nil]

theorem buildPlanLoop_filter
    (adapterList : String → Except String (List (String × MCPServerSpec)))
    (incoming : List (String × MCPServerSpec)) (ts : List String)
    (t : String) (ex : List (String × MCPServerSpec)) (n : String) (s : MCPServerSpec)
    (htN : ts.Nodup) (ht : t ∈ ts) (had : adapterList t = Except.ok ex)
    (hincN : (incoming.map Prod.fst).Nodup) (hmem : (n, s) ∈ incoming)
    (ds : List ServerDiff) (cs : List ServerConflict)
    (h : buildPlanLoop adapterList incoming ts = Except.ok (ds, cs)) :
    ds.filter (diffAt t n) = (planServer t ex (keyToNameIndex ex) n s).1 ∧
    cs.filter (confAt t n) = (planServer t ex (keyToNameIndex ex) n s).2 := by
  induction ts generalizing ds cs with
  | nil => simp at ht
  | cons t' rest ih =>
    simp only [buildPlanLoop] at h
    cases h1 : adapterList t' with
    | error e => rw [h1] at h; cases h
    | ok ex' =>
      rw [h1] at h
      cases h2 : buildPlanLoop adapterList incoming rest with
      | error e => rw [h2] at h; cases h
      | ok rest2 =>
        rw [h2] at h
        cases h
        simp only [List.nodup_cons] at htN
        obtain ⟨ht'rest, hrestN⟩ := htN
        rcases List.mem_cons.mp ht with rfl | htr
        · have hex : ex' = ex := by
            rw [h1] at had
            cases had
            rfl
          subst hex
          obtain ⟨hp1, hp2⟩ := filter_planIncoming t ex' (keyToNameIndex ex')
            incoming n s hincN hmem
          obtain ⟨hn1, hn2⟩ := buildPlanLoop_filter_nil adapterList incoming rest
            t n ht'rest rest2.1 rest2.2 (by rw [h2])
          constructor
          · simp only [List.filter_append, planTarget, hp1, hn1, List.append_nil]
          · simp only [List.filter_append, planTarget, hp2, hn2, List.append_nil]
        · have htne : t' ≠ t := fun hh => ht'rest (hh ▸ htr)
          obtain ⟨ih1, ih2⟩ := ih hrestN htr rest2.1 rest2.2 (by rw [h2])
          obtain ⟨hn1, hn2⟩ :=
            filter_planIncoming_nil t' t ex' (keyToNameIndex ex') incoming n (Or.inl htne)
          constructor
          · simp only [List.filter_append, planTarget, hn1, ih1, List.nil_append]
          · simp only [List.filter_append, planTarget, hn2, ih2, List.nil_append]

theorem alookup_of_mem {α : Type} (m : List (String × α)) (k : String) (v : α)
    (h : (k, v) ∈ m) : ∃ w, alookup m k = some w := by
  induction m with
  | nil => simp at h
  | cons p rest ih =>
    obtain ⟨k', w'⟩ := p
    rcases List.mem_cons.mp h with h1 | h2
    · obtain ⟨rfl, rfl⟩ := Prod.mk.injEq .. ▸ h1
      exact ⟨v, by simp [alookup]⟩
    · by_cases hk : k' = k
      · exact ⟨w', by simp [alookup, hk]⟩
      · obtain ⟨w, hw⟩ := ih h2
        exact ⟨w, by simp [alookup, hk, hw]⟩

theorem planServer_conflicts_cases (t : String) (ex : List (String × MCPServerSpec))
    (kidx : List (String × String)) (n : String) (s : MCPServerSpec) :
    (planServer t ex kidx n s).2 = [] ∨ ∃ c, (planServer t ex kidx n s).2 = [c] := by
  unfold planServer
  cases alookup ex n with
  | some s' =>
    by_cases h : specsEqual s' s
    · simp [h]
    · simp [h]
  | none =>
    cases alookup kidx (canonicalKey s) with
    | some en => simp
    | none => simp

/-- The filters of the final (sorted) plan for a pair (t, n) agree with the
contribution of `planServer` for that pair. Shared helper for the planner
claims. -/
theorem installPlan_filter (targets : List String)
    (adapterList : String → Except String (List (String × MCPServerSpec)))
    (incoming : List (String × MCPServerSpec)) (plan : InstallPlan)
    (t : String) (ex : List (String × MCPServerSpec)) (n : String) (s : MCPServerSpec)
    (hplan : buildInstallPlan targets adapterList incoming = Except.ok plan)
    (htN : targets.Nodup) (hincN : (incoming.map Prod.fst).Nodup)
    (ht : t ∈ targets) (had : adapterList t = Except.ok ex)
    (hmem : (n, s) ∈ incoming) :
    plan.diffs.filter (diffAt t n) = (planServer t ex (keyToNameIndex ex) n s).1 ∧
    plan.conflicts.filter (confAt t n) = (planServer t ex (keyToNameIndex ex) n s).2 := by
  unfold buildInstallPlan at hplan
  cases h0 : buildPlanLoop adapterList incoming targets with
  | error e => rw [h0] at hplan; cases hplan
  | ok dc =>
    rw [h0] at hplan
    cases hplan
    obtain ⟨hf1, hf2⟩ := buildPlanLoop_filter adapterList incoming targets t ex n s
      htN ht had hincN hmem dc.1 dc.2 (by rw [h0])
    constructor
    · show List.filter (diffAt t n) (dc.1.insertionSort diffLE) =
        (planServer t ex (keyToNameIndex ex) n s).1
      have hperm : List.Perm ((dc.1.insertionSort diffLE).filter (diffAt t n))
          (dc.1.filter (diffAt t n)) :=
        (List.perm_insertionSort diffLE dc.1).filter _
      rw [hf1] at hperm
      obtain ⟨d, hd, -, -⟩ := planServer_diffs_shape t ex (keyToNameIndex ex) n s
      rw [hd] at hperm ⊢
      exact hperm.eq_singleton
    · show List.filter (confAt t n) (dc.2.insertionSort conflictLE) =
        (planServer t ex (keyToNameIndex ex) n s).2
      have hperm : List.Perm ((dc.2.insertionSort conflictLE).filter (confAt t n))
          (dc.2.filter (confAt t n)) :=
        (List.perm_insertionSort conflictLE dc.2).filter _
      rw [hf2] at hperm
      rcases planServer_conflicts_cases t ex (keyToNameIndex ex) n s with hc | ⟨c, hc⟩
      · rw [hc] at hperm ⊢
        exact hperm.eq_nil
      · rw [hc] at hperm ⊢
        exact hperm.eq_singleton

/-- C3: for every target and every incoming (name, spec) pair, `buildInstallPlan`
emits exactly one diff for the pair, and the diff op together with the conflict
follows the four-case rule: equal canonical spec under the same name gives a
noop diff and no conflict; a differing spec under the same name gives a modify
diff and one name_exists conflict; a fresh name whose canonical key matches a
differently-named existing entry gives an add diff and a duplicate_spec
conflict referencing that existing name; otherwise an add diff and no
conflict. -/
theorem buildInstallPlan_four_case_rule (targets : List String)
    (adapterList : String → Except String (List (String × MCPServerSpec)))
    (incoming : List (String × MCPServerSpec)) (plan : InstallPlan)
    (t : String) (ex : List (String × MCPServerSpec)) (n : String) (s : MCPServerSpec)
    (hplan : buildInstallPlan targets adapterList incoming = Except.ok plan)
    (htN : targets.Nodup) (hincN : (incoming.map Prod.fst).Nodup)
    (ht : t ∈ targets) (had : adapterList t = Except.ok ex)
    (hmem : (n, s) ∈ incoming) :
    (plan.diffs.filter (diffAt t n)).length = 1 ∧
    (∀ s', alookup ex n = some s' → canonicalKey s' = canonicalKey s →
      plan.diffs.filter (diffAt t n) =
        [{ target := t, serverName := n, op := DiffOp.noop, before := some s', after := s }] ∧
      plan.conflicts.filter (confAt t n) = []) ∧
    (∀ s', alookup ex n = some s' → canonicalKey s' ≠ canonicalKey s →
      plan.diffs.filter (diffAt t n) =
        [{ target := t, serverName := n, op := DiffOp.modify, before := some s', after := s }] ∧
      plan.conflicts.filter (confAt t n) =
        [{ target := t, serverName := n, kind := ConflictKind.nameExists }]) ∧
    (∀ en, alookup ex n = none →
      alookup (keyToNameIndex ex) (canonicalKey s) = some en →
      plan.diffs.filter (diffAt t n) =
        [{ target := t, serverName := n, op := DiffOp.add, after := s }] ∧
      plan.conflicts.filter (confAt t n) =
        [{ target := t, serverName := n, kind := ConflictKind.duplicateSpec,
           existingName := en }] ∧
      en ≠ n ∧ ∃ s', (en, s') ∈ ex ∧ canonicalKey s' = canonicalKey s) ∧
    (alookup ex n = none → alookup (keyToNameIndex ex) (canonicalKey s) = none →
      plan.diffs.filter (diffAt t n) =
        [{ target := t, serverName := n, op := DiffOp.add, after := s }] ∧
      plan.conflicts.filter (confAt t n) = [] ∧
      ∀ p ∈ ex, canonicalKey p.2 ≠ canonicalKey s) := by
  obtain ⟨hf1, hf2⟩ := installPlan_filter targets adapterList incoming plan t ex n s
    hplan htN hincN ht had hmem
  refine ⟨?_, ?_, ?_, ?_, ?_⟩
  · rw [hf1]
    obtain ⟨d, hd, -, -⟩ := planServer_diffs_shape t ex (keyToNameIndex ex) n s
    rw [hd]
    rfl
  · intro s' hlk hkey
    have hse : specsEqual s' s = true := by
      simp [specsEqual, hkey]
    rw [hf1, hf2]
    constructor
    · simp [planServer, hlk, hse]
    · simp [planServer, hlk, hse]
  · intro s' hlk hkey
    have hse : ¬ specsEqual s' s = true := by
      simp [specsEqual, hkey]
    rw [hf1, hf2]
    constructor
    · simp [planServer, hlk, hse]
    · simp [planServer, hlk, hse]
  · intro en hlk hkidx
    obtain ⟨s', hmem', hkey'⟩ := keyToNameIndex_some ex (canonicalKey s) en hkidx
    have hen : en ≠ n := by
      intro hen
      obtain ⟨w, hw⟩ := alookup_of_mem ex en s' hmem'
      rw [hen, hlk] at hw
      cases hw
    rw [hf1, hf2]
    refine ⟨?_, ?_, hen, s', hmem', hkey'⟩
    · simp [planServer, hlk, hkidx]
    · simp [planServer, hlk, hkidx]
  · intro hlk hkidx
    rw [hf1, hf2]
    refine ⟨?_, ?_, (keyToNameIndex_go_none ex [] (canonicalKey s) hkidx).2⟩
    · simp [planServer, hlk, hkidx]
    · simp [planServer, hlk, hkidx]

/-- Concrete spec used by the planner witnesses. -/
def specW : MCPServerSpec := { transport := "stdio", command := "echo", args := ["hi"] }

/-- Concrete existing server list used by the planner witnesses. -/
def exW : List (String × MCPServerSpec) := [("old", specW)]

/-- Concrete incoming server list used by the planner witnesses. -/
def incW : List (String × MCPServerSpec) := [("new", specW)]

/-- Concrete adapter listing used by the planner witnesses. -/
def adW : String → Except String (List (String × MCPServerSpec)) := fun _ => Except.ok exW

/-- The plan computed by `buildInstallPlan` on the witness input. -/
def planW : InstallPlan :=
  { conflicts := [{ target := "c1", serverName := "new",
                    kind := ConflictKind.duplicateSpec, existingName := "old" }]
    diffs := [{ target := "c1", serverName := "new", op := DiffOp.add,
                after := specW }] }

/-- Witness for C3: the four-case rule evaluated at a concrete input. -/
theorem buildInstallPlan_four_case_rule_witness :
    (planW.diffs.filter (diffAt "c1" "new")).length = 1 :=
  (buildInstallPlan_four_case_rule ["c1"] adW incW planW "c1" exW "new" specW
    rfl (by decide) (by decide) (by decide) rfl (by decide)).1

/-- C10: the planner's spec equality is exactly canonical-key equality, which
ignores the required-environment-variable list: an incoming spec with the same
name, transport and command/args (or url) as the existing entry but a different
env_required list yields a noop diff and no conflict for that (target, name)
pair. -/
theorem specsEqual_ignores_envRequired (targets : List String)
    (adapterList : String → Except String (List (String × MCPServerSpec)))
    (incoming : List (String × MCPServerSpec)) (plan : InstallPlan)
    (t : String) (ex : List (String × MCPServerSpec)) (n : String)
    (s s' : MCPServerSpec)
    (hplan : buildInstallPlan targets adapterList incoming = Except.ok plan)
    (htN : targets.Nodup) (hincN : (incoming.map Prod.fst).Nodup)
    (ht : t ∈ targets) (had : adapterList t = Except.ok ex)
    (hmem : (n, s) ∈ incoming) (hlk : alookup ex n = some s')
    (htr : s'.transport = s.transport)
    (hhttp : s.transport = ServerTransportHTTP → s'.url = s.url)
    (hstdio : s.transport ≠ ServerTransportHTTP →
      s'.command = s.command ∧ s'.args = s.args)
    (henv : s'.envRequired ≠ s.envRequired) :
    (∀ a b : MCPServerSpec, specsEqual a b = true ↔ canonicalKey a = canonicalKey b) ∧
    plan.diffs.filter (diffAt t n) =
      [{ target := t, serverName := n, op := DiffOp.noop, before := some s', after := s }] ∧
    plan.conflicts.filter (confAt t n) = [] := by
  have hkey : canonicalKey s' = canonicalKey s := by
    unfold canonicalKey
    by_cases hh : s.transport = ServerTransportHTTP
    · rw [if_pos hh, if_pos (htr.trans hh), hhttp hh]
    · obtain ⟨hc, ha⟩ := hstdio hh
      rw [if_neg hh, if_neg (fun hcon => hh (htr.symm.trans hcon)), hc, ha]
  have hse : specsEqual s' s = true := by
    simp [specsEqual, hkey]
  obtain ⟨hf1, hf2⟩ := installPlan_filter targets adapterList incoming plan t ex n s
    hplan htN hincN ht had hmem
  refine ⟨fun a b => by simp [specsEqual], ?_, ?_⟩
  · rw [hf1]
    simp [planServer, hlk, hse]
  · rw [hf2]
    simp [planServer, hlk, hse]

/-- Concrete existing spec (same canonical key as `specW`, different
env_required) used by the C10 witness. -/
def specWEnv : MCPServerSpec :=
  { transport := "stdio", command := "echo", args := ["hi"], envRequired := ["TOKEN"] }

/-- Concrete existing server list for the C10 witness. -/
def exWEnv : List (String × MCPServerSpec) := [("new", specWEnv)]

/-- Concrete adapter listing for the C10 witness. -/
def adWEnv : String → Except String (List (String × MCPServerSpec)) := fun _ =>
  Except.ok exWEnv

/-- The plan computed on the C10 witness input: a pure noop. -/
def planWEnv : InstallPlan :=
  { conflicts := []
    diffs := [{ target := "c1", serverName := "new", op := DiffOp.noop,
                before := some specWEnv, after := specW }] }

/-- Witness for C10 at a concrete input. -/
theorem specsEqual_ignores_envRequired_witness :
    planWEnv.conflicts.filter (confAt "c1" "new") = [] :=
  (specsEqual_ignores_envRequired ["c1"] adWEnv incW planWEnv "c1" exWEnv "new"
    specW specWEnv rfl (by decide) (by decide) (by decide) rfl (by decide) rfl
    (by decide) (by decide) (by decide) (by decide)).2.2

/-! ### Generic JSON adapter (adapters package) -/

/-- A decoded JSON value (the `map[string]any` / `[]any` / scalar universe the
adapters manipulate). Objects are association lists of fields. -/
inductive JValue where
  | null
  | bool (b : Bool)
  | num (n : Int)
  | str (s : String)
  | arr (items : List JValue)
  | obj (fields : List (String × JValue))
deriving Repr

/-- `toMap` from the adapters package: succeeds exactly on JSON objects. -/
def toMap : JValue → Option (List (String × JValue))
  | JValue.obj fields => some fields
  | _ => none

/-- `toStringSlice` from the adapters package: collects the string elements of
an array, anything else yields nil. -/
def toStringSlice : JValue → List String
  | JValue.arr items =>
    items.filterMap (fun it =>
      match it with
      | JValue.str s => some s
      | _ => none)
  | _ => []

/-- `getNestedMap` from the adapters package: navigate a JSON structure by key
path; empty path or any miss yields nil. -/
def getNestedMap : List (String × JValue) → List String → Option (List (String × JValue))
  | _, [] => none
  | raw, [k] => (alookup raw k).bind toMap
  | raw, k :: ks => ((alookup raw k).bind toMap).bind (fun m => getNestedMap m ks)

/-- `setNestedMap` from the adapters package: set a value at a nested key path,
creating (or replacing non-object values with) intermediate maps as needed. -/
def setNestedMap : List (String × JValue) → List String → List (String × JValue) →
    List (String × JValue)
  | raw, [], _ => raw
  | raw, [k], value => ainsert raw k (JValue.obj value)
  | raw, k :: ks, value =>
    let next := ((alookup raw k).bind toMap).getD []
    ainsert raw k (JValue.obj (setNestedMap next ks value))

/-- `standardSpecToConfig` from the adapters package. -/
def standardSpecToConfig (spec : MCPServerSpec) : List (String × JValue) :=
  if spec.transport = ServerTransportHTTP then
    [("url", JValue.str spec.url)]
  else
    let base := [("command", JValue.str spec.command)]
    if spec.args.length > 0 then
      base ++ [("args", JValue.arr (spec.args.map JValue.str))]
    else
      base

/-- The stdio branch of `standardConfigToSpec`. -/
def standardConfigToSpecStdio (cfg : List (String × JValue)) : MCPServerSpec :=
  { transport := ServerTransportSTDIO
    command :=
      match alookup cfg "command" with
      | some (JValue.str c) => c
      | _ => ""
    args := toStringSlice ((alookup cfg "args").getD JValue.null) }

/-- `standardConfigToSpec` from the adapters package. -/
def standardConfigToSpec (cfg : List (String × JValue)) : MCPServerSpec :=
  match alookup cfg "url" with
  | some (JValue.str u) =>
    if u ≠ "" then { transport := ServerTransportHTTP, url := u }
    else standardConfigToSpecStdio cfg
  | _ => standardConfigToSpecStdio cfg

/-- `GenericJSONAdapter.UpsertServers` at the decoded-document level: fetch the
servers section (missing section treated as empty), overwrite each incoming
entry with its converted config, write the section back. -/
def upsertServersDoc (serverKeys : List String) (doc : List (String × JValue))
    (servers : List (String × MCPServerSpec)) : List (String × JValue) :=
  let mcp := (getNestedMap doc serverKeys).getD []
  let mcp := servers.foldl
    (fun m p => ainsert m p.1 (JValue.obj (standardSpecToConfig p.2))) mcp
  setNestedMap doc serverKeys mcp

/-- `GenericJSONAdapter.RemoveServers` at the decoded-document level: if the
servers section is missing the document is untouched, otherwise the named
entries are deleted and the section written back. -/
def removeServersDoc (serverKeys : List String) (doc : List (String × JValue))
    (names : List String) : List (String × JValue) :=
  match getNestedMap doc serverKeys with
  | none => doc
  | some mcp => setNestedMap doc serverKeys (names.foldl aremove mcp)

/-- `GenericJSONAdapter.ListServers` at the decoded-document level: read the
servers section (missing yields empty), converting each entry that is an object. -/
def listServersDoc (serverKeys : List String) (doc : List (String × JValue)) :
    List (String × MCPServerSpec) :=
  match getNestedMap doc serverKeys with
  | none => []
  | some mcp =>
    mcp.filterMap (fun p => (toMap p.2).map (fun m => (p.1, standardConfigToSpec m)))

theorem toMap_eq_some {v : JValue} {m : List (String × JValue)}
    (h : toMap v = some m) : v = JValue.obj m := by
  cases v <;> simp [toMap] at h
  rw [h]

theorem getNestedMap_setNestedMap (raw : List (String × JValue)) (keys : List String)
    (v : List (String × JValue)) (hk : keys ≠ []) :
    getNestedMap (setNestedMap raw keys v) keys = some v := by
  induction keys generalizing raw with
  | nil => exact absurd rfl hk
  | cons k ks ih =>
    cases ks with
    | nil =>
      simp [setNestedMap, getNestedMap, alookup_ainsert, toMap]
    | cons k2 ks2 =>
      show getNestedMap
        (ainsert raw k (JValue.obj
          (setNestedMap (((alookup raw k).bind toMap).getD []) (k2 :: ks2) v)))
        (k :: k2 :: ks2) = some v
      show ((alookup (ainsert raw k _) k).bind toMap).bind
        (fun m => getNestedMap m (k2 :: ks2)) = some v
      rw [alookup_ainsert]
      simp only [if_pos rfl, Option.some_bind, toMap]
      exact ih _ (by simp)

theorem alookup_foldl_ainsert_of_mem {α : Type} (f : MCPServerSpec → α)
    (servers : List (String × MCPServerSpec)) (m0 : List (String × α))
    (n : String) (s : MCPServerSpec)
    (hN : (servers.map Prod.fst).Nodup) (hmem : (n, s) ∈ servers) :
    alookup (servers.foldl (fun m p => ainsert m p.1 (f p.2)) m0) n = some (f s) := by
  induction servers generalizing m0 with
  | nil => simp at hmem
  | cons p rest ih =>
    obtain ⟨m, u⟩ := p
    simp only [List.map_cons, List.nodup_cons] at hN
    obtain ⟨hm, hrestN⟩ := hN
    simp only [List.foldl_cons]
    rcases List.mem_cons.mp hmem with h1 | h2
    · obtain ⟨rfl, rfl⟩ := Prod.mk.injEq .. ▸ h1
      have hstable : ∀ (l : List (String × MCPServerSpec)) (acc : List (String × α)),
          n ∉ l.map Prod.fst →
          alookup (l.foldl (fun m p => ainsert m p.1 (f p.2)) acc) n = alookup acc n := by
        intro l
        induction l with
        | nil => intro acc _; rfl
        | cons q qs ih2 =>
          intro acc hq
          simp only [List.map_cons] at hq
          simp only [List.foldl_cons]
          rw [ih2 _ (fun hc => hq (List.mem_cons_of_mem _ hc))]
          rw [alookup_ainsert]
          have : q.1 ≠ n := fun hc => hq (by simp [hc])
          simp [this]
      rw [hstable rest _ hm, alookup_ainsert]
      simp
    · have hmn : m ≠ n := by
        intro hmn
        subst hmn
        exact hm (by simpa using List.mem_map_of_mem Prod.fst h2)
      exact ih _ hrestN h2

theorem alookup_filterMap {α : Type} (f : (String × JValue) → Option (String × α))
    (hf : ∀ p q, f p = some q → q.1 = p.1)
    (l : List (String × JValue)) (n : String) (c : JValue) (spec : α)
    (hlk : alookup l n = some c) (hc : f (n, c) = some (n, spec)) :
    alookup (l.filterMap f) n = some spec := by
  induction l with
  | nil => simp [alookup] at hlk
  | cons p rest ih =>
    obtain ⟨k, w⟩ := p
    by_cases hk : k = n
    · subst hk
      have hw : w = c := by simpa [alookup] using hlk
      subst hw
      simp only [List.filterMap_cons, hc]
      simp [alookup]
    · simp only [alookup, if_neg hk] at hlk
      simp only [List.filterMap_cons]
      cases hfp : f (k, w) with
      | none => exact ih hlk
      | some q =>
        have hq1 : q.1 = k := hf _ _ hfp
        obtain ⟨q1, q2⟩ := q
        simp only [alookup]
        simp only at hq1
        rw [hq1, if_neg hk]
        exact ih hlk

theorem standardConfigToSpec_url (u : String) (hu : u ≠ "") :
    standardConfigToSpec [("url", JValue.str u)] =
    { transport := ServerTransportHTTP, url := u } := by
  simp [standardConfigToSpec, alookup, hu]

theorem standardConfigToSpec_cmd (c : String) :
    standardConfigToSpec [("command", JValue.str c)] =
    { transport := ServerTransportSTDIO, command := c } := by
  have h1 : ¬ ("command" : String) = "url" := by decide
  simp [standardConfigToSpec, alookup, h1, standardConfigToSpecStdio, toStringSlice]

theorem standardConfigToSpec_cmd_args (c : String) (args : List String) :
    standardConfigToSpec
      [("command", JValue.str c), ("args", JValue.arr (args.map JValue.str))] =
    { transport := ServerTransportSTDIO, command := c, args := args } := by
  have h1 : ¬ ("command" : String) = "url" := by decide
  have h2 : ¬ ("args" : String) = "url" := by decide
  have h4 : ¬ ("command" : String) = "args" := by decide
  have harg : List.filterMap
      ((fun it =>
          match it with
          | JValue.str s => some s
          | _ => none) ∘ JValue.str) args = args := by
    induction args with
    | nil => rfl
    | cons a as ih => simpa [List.filterMap_cons] using ih
  simp [standardConfigToSpec, alookup, h1, h2, h4, standardConfigToSpecStdio,
    toStringSlice, List.filterMap_map, harg]

theorem roundtrip_canonicalKey (s : MCPServerSpec)
    (hvalid : s.transport = ServerTransportHTTP → s.url ≠ "") :
    canonicalKey (standardConfigToSpec (standardSpecToConfig s)) = canonicalKey s := by
  by_cases ht : s.transport = ServerTransportHTTP
  · rw [standardSpecToConfig, if_pos ht, standardConfigToSpec_url s.url (hvalid ht)]
    simp [canonicalKey, ht, ServerTransportHTTP]
  · rw [standardSpecToConfig, if_neg ht]
    by_cases ha : s.args.length > 0
    · rw [if_pos ha]
      show canonicalKey (standardConfigToSpec
        [("command", JValue.str s.command),
         ("args", JValue.arr (s.args.map JValue.str))]) = canonicalKey s
      rw [standardConfigToSpec_cmd_args]
      have hst : ¬ ( ServerTransportSTDIO = ServerTransportHTTP) := by decide
      simp [canonicalKey, ht, hst]
    · rw [if_neg ha]
      have hempty : s.args = [] := by
        cases harg : s.args with
        | nil => rfl
        | cons a as => rw [harg] at ha; simp at ha
      rw [standardConfigToSpec_cmd]
      have hst : ¬ ( ServerTransportSTDIO = ServerTransportHTTP) := by decide
      simp [canonicalKey, ht, hst, hempty]

/-- C8 (amended): writing a server set via the generic JSON adapter and listing
it back yields, for each written name whose http specs carry a non-empty url,
a spec with the same canonical key as the original. -/
theorem adapter_roundtrip (serverKeys : List String) (doc : List (String × JValue))
    (servers : List (String × MCPServerSpec))
    (hk : serverKeys ≠ [])
    (hN : (servers.map Prod.fst).Nodup)
    (hvalid : ∀ p ∈ servers, p.2.transport = ServerTransportHTTP → p.2.url ≠ "") :
    ∀ p ∈ servers, ∃ s',
      alookup (listServersDoc serverKeys (upsertServersDoc serverKeys doc servers)) p.1
        = some s' ∧
      canonicalKey s' = canonicalKey p.2 := by
  intro p hp
  obtain ⟨n, s⟩ := p
  refine ⟨standardConfigToSpec (standardSpecToConfig s), ?_,
    roundtrip_canonicalKey s (hvalid _ hp)⟩
  show alookup (listServersDoc serverKeys (setNestedMap doc serverKeys
    (servers.foldl (fun m p => ainsert m p.1 (JValue.obj (standardSpecToConfig p.2)))
      ((getNestedMap doc serverKeys).getD [])))) n = some _
  unfold listServersDoc
  rw [getNestedMap_setNestedMap _ _ _ hk]
  exact alookup_filterMap
    (fun p => (toMap p.2).map (fun m => (p.1, standardConfigToSpec m)))
    (by
      intro q r hq
      simp only at hq
      cases hq2 : toMap q.2 with
      | none => rw [hq2] at hq; cases hq
      | some m =>
        rw [hq2] at hq
        simp only [Option.map_some'] at hq
        injection hq with hq3
        rw [← hq3])
    _ n (JValue.obj (standardSpecToConfig s)) _
    (alookup_foldl_ainsert_of_mem (fun u => JValue.obj (standardSpecToConfig u))
      servers _ n s hN hp)
    rfl

/-- The http spec with an empty url used by the C8 counterexample. -/
def specHttpEmptyW : MCPServerSpec := { transport := "http" }

/-- Counterexample for C8 as stated: an http spec with an empty url round-trips
through the adapter converters to a stdio spec with a different canonical key. -/
theorem adapter_roundtrip_counterexample :
    listServersDoc ["mcpServers"]
        (upsertServersDoc ["mcpServers"] [] [("h", specHttpEmptyW)]) =
      [("h", { transport := ServerTransportSTDIO })] ∧
    canonicalKey { transport := ServerTransportSTDIO } ≠ canonicalKey specHttpEmptyW := by
  constructor
  · rfl
  · decide

/-- Witness for C8 at a concrete input: one stdio and one http server. -/
theorem adapter_roundtrip_witness :
    ∃ s', alookup (listServersDoc ["mcp", "servers"]
        (upsertServersDoc ["mcp", "servers"]
          [("theme", JValue.str "dark")]
          [("a", { transport := "stdio", command := "npx", args := ["-y"] }),
           ("b", { transport := "http", url := "https://x.example" })])) "b"
      = some s' ∧
    canonicalKey s' = canonicalKey { transport := "http", url := "https://x.example" } :=
  adapter_roundtrip ["mcp", "servers"] [("theme", JValue.str "dark")]
    [("a", { transport := "stdio", command := "npx", args := ["-y"] }),
     ("b", { transport := "http", url := "https://x.example" })]
    (by decide) (by decide) (by decide)
    ("b", { transport := "http", url := "https://x.example" }) (by decide)

/-- Navigate a decoded JSON value along a key path (the generic notion of a
top-level or nested entry of the document). -/
def getPath : JValue → List String → Option JValue
  | v, [] => some v
  | JValue.obj fields, k :: ks => (alookup fields k).bind (fun w => getPath w ks)
  | _, _ :: _ => none

/-- `Diverges q keys` holds when the path `q` leaves the declared servers key
path at some index: `q` is neither a prefix of `keys` nor an extension of it.
Such a path addresses an entry outside the servers subsection (and outside its
ancestor chain). -/
inductive Diverges : List String → List String → Prop
  | head (q0 : String) (q' : List String) (k0 : String) (keys' : List String) :
      q0 ≠ k0 → Diverges (q0 :: q') (k0 :: keys')
  | tail (k : String) (q' keys' : List String) :
      Diverges q' keys' → Diverges (k :: q') (k :: keys')

theorem getPath_setNestedMap (raw : List (String × JValue)) (keys : List String)
    (v : List (String × JValue)) (q : List String) (hdiv : Diverges q keys) :
    getPath (JValue.obj (setNestedMap raw keys v)) q = getPath (JValue.obj raw) q := by
  induction hdiv generalizing raw with
  | head q0 q' k0 keys' hne =>
    have hset : ∃ x, setNestedMap raw (k0 :: keys') v = ainsert raw k0 x := by
      cases keys' with
      | nil => exact ⟨JValue.obj v, rfl⟩
      | cons k2 ks2 =>
        exact ⟨JValue.obj (setNestedMap (((alookup raw k0).bind toMap).getD [])
          (k2 :: ks2) v), rfl⟩
    obtain ⟨x, hx⟩ := hset
    rw [hx]
    show (alookup (ainsert raw k0 x) q0).bind (fun w => getPath w q') =
      (alookup raw q0).bind (fun w => getPath w q')
    rw [alookup_ainsert]
    rw [if_neg (fun hh => hne hh.symm)]
  | tail k q' keys' hdiv' ih =>
    have hq' : ∃ a b, q' = a :: b := by
      cases hdiv' with
      | head a b c d h => exact ⟨a, b, rfl⟩
      | tail a b c h => exact ⟨a, b, rfl⟩
    have hkeys' : ∃ a b, keys' = a :: b := by
      cases hdiv' with
      | head a b c d h => exact ⟨c, d, rfl⟩
      | tail a b c h => exact ⟨a, c, rfl⟩
    obtain ⟨k2, ks2, rfl⟩ := hkeys'
    show getPath (JValue.obj (ainsert raw k
      (JValue.obj (setNestedMap (((alookup raw k).bind toMap).getD []) (k2 :: ks2) v))))
      (k :: q') = getPath (JValue.obj raw) (k :: q')
    show (alookup (ainsert raw k _) k).bind (fun w => getPath w q') =
      (alookup raw k).bind (fun w => getPath w q')
    rw [alookup_ainsert, if_pos rfl]
    simp only [Option.some_bind]
    rw [ih]
    cases hlk : alookup raw k with
    | none =>
      simp only [hlk, Option.none_bind, Option.bind_none, toMap, Option.getD_none]
      obtain ⟨a, b, rfl⟩ := hq'
      rfl
    | some w =>
      simp only [hlk, Option.some_bind]
      cases hw : toMap w with
      | none =>
        simp only [hw, Option.getD_none]
        obtain ⟨a, b, rfl⟩ := hq'
        cases w with
        | obj fields => simp [toMap] at hw
        | null => rfl
        | bool bb => rfl
        | num nn => rfl
        | str ss => rfl
        | arr items => rfl
      | some m =>
        rw [toMap_eq_some hw]
        simp [hw]

/-- C9: `UpsertServers` and `RemoveServers` of the generic JSON adapter are
read-modify-write over the full parsed document: every entry whose path leaves
the declared servers key path is unchanged in the written document. -/
theorem adapter_preserves_outside_serverKeys (serverKeys : List String)
    (doc : List (String × JValue)) (servers : List (String × MCPServerSpec))
    (names : List String) (q : List String) (hdiv : Diverges q serverKeys) :
    getPath (JValue.obj (upsertServersDoc serverKeys doc servers)) q =
      getPath (JValue.obj doc) q ∧
    getPath (JValue.obj (removeServersDoc serverKeys doc names)) q =
      getPath (JValue.obj doc) q := by
  constructor
  · exact getPath_setNestedMap doc serverKeys _ q hdiv
  · unfold removeServersDoc
    cases h : getNestedMap doc serverKeys with
    | none => rfl
    | some mcp => exact getPath_setNestedMap doc serverKeys _ q hdiv

/-- Witness for C9 at a concrete input: an unrelated top-level key and an
unrelated nested key survive an upsert and a removal untouched. -/
theorem adapter_preserves_outside_serverKeys_witness :
    getPath (JValue.obj (upsertServersDoc ["mcp", "servers"]
        [("theme", JValue.str "dark"), ("mcp", JValue.obj [("port", JValue.num 1)])]
        [("a", { transport := "stdio", command := "npx" })]))
      ["mcp", "port"] =
      getPath (JValue.obj
        [("theme", JValue.str "dark"), ("mcp", JValue.obj [("port", JValue.num 1)])])
      ["mcp", "port"] ∧
    getPath (JValue.obj (removeServersDoc ["mcp", "servers"]
        [("theme", JValue.str "dark"), ("mcp", JValue.obj [("port", JValue.num 1)])]
        ["a"]))
      ["mcp", "port"] =
      getPath (JValue.obj
        [("theme", JValue.str "dark"), ("mcp", JValue.obj [("port", JValue.num 1)])])
      ["mcp", "port"] :=
  adapter_preserves_outside_serverKeys ["mcp", "servers"]
    [("theme", JValue.str "dark"), ("mcp", JValue.obj [("port", JValue.num 1)])]
    [("a", { transport := "stdio", command := "npx" })] ["a"] ["mcp", "port"]
    (Diverges.tail "mcp" ["port"] ["servers"]
      (Diverges.head "port" [] "servers" [] (by decide)))

/-! ### Semantic versions (the Masterminds/semver fragment used by the registry)

The registry resolves versions with the Masterminds semver library. We model
the canonical `major.minor.patch` fragment of it: version strings are three
dot-separated decimal components, compared lexicographically, and a constraint
expression is a comma-separated conjunction of comparator clauses. -/

/-- A parsed semantic version (canonical triple form). -/
structure SemVer where
  major : Nat
  minor : Nat
  patch : Nat
deriving DecidableEq, Repr

/-- The lexicographic key of a version, used to define its total order. -/
def SemVer.key (v : SemVer) : Lex (Nat × Lex (Nat × Nat)) :=
  toLex (v.major, toLex (v.minor, v.patch))

theorem SemVer.key_injective : Function.Injective SemVer.key := by
  intro a b h
  obtain ⟨a1, a2, a3⟩ := a
  obtain ⟨b1, b2, b3⟩ := b
  simp only [SemVer.key, toLex_inj, Prod.mk.injEq] at h
  obtain ⟨h1, h2, h3⟩ := h
  simp [h1, h2, h3]

/-- Semver precedence as a linear order (major, then minor, then patch). -/
instance : LinearOrder SemVer := LinearOrder.lift' SemVer.key SemVer.key_injective

/-- A single decimal digit as a character. -/
def digitChar (d : Nat) : Char := Char.ofNat (d + 48)

/-- Fueled accumulator loop for decimal rendering (structural recursion so
that concrete witnesses evaluate by kernel reduction). -/
def natToCharsAux : Nat → Nat → List Char → List Char
  | 0, _, acc => acc
  | fuel + 1, n, acc =>
    if n < 10 then digitChar n :: acc
    else natToCharsAux fuel (n / 10) (digitChar (n % 10) :: acc)

/-- Decimal representation of a natural number as characters (`fmt %d`). -/
def natToChars (n : Nat) : List Char := natToCharsAux (n + 1) n []

theorem natToCharsAux_succ (f n : Nat) (acc : List Char) :
    natToCharsAux (f + 1) n acc =
      if n < 10 then digitChar n :: acc
      else natToCharsAux f (n / 10) (digitChar (n % 10) :: acc) := rfl

theorem natToCharsAux_fuel (n : Nat) : ∀ (fuel1 fuel2 : Nat) (acc : List Char),
    n < fuel1 → n < fuel2 → natToCharsAux fuel1 n acc = natToCharsAux fuel2 n acc := by
  induction n using Nat.strong_induction_on with
  | _ n ih =>
    intro fuel1 fuel2 acc h1 h2
    cases fuel1 with
    | zero => omega
    | succ f1 =>
      cases fuel2 with
      | zero => omega
      | succ f2 =>
        rw [natToCharsAux_succ, natToCharsAux_succ]
        by_cases h10 : n < 10
        · simp [h10]
        · rw [if_neg h10, if_neg h10]
          have hdiv : n / 10 < n := Nat.div_lt_self (by omega) (by omega)
          exact ih (n / 10) hdiv f1 f2 _ (by omega) (by omega)

theorem natToCharsAux_acc (n : Nat) : ∀ (fuel : Nat) (acc : List Char),
    n < fuel → natToCharsAux fuel n acc = natToCharsAux fuel n [] ++ acc := by
  induction n using Nat.strong_induction_on with
  | _ n ih =>
    intro fuel acc h
    cases fuel with
    | zero => omega
    | succ f =>
      rw [natToCharsAux_succ, natToCharsAux_succ]
      by_cases h10 : n < 10
      · simp [h10]
      · rw [if_neg h10, if_neg h10]
        have hdiv : n / 10 < n := Nat.div_lt_self (by omega) (by omega)
        have hf : n / 10 < f := by omega
        rw [ih (n / 10) hdiv f (digitChar (n % 10) :: acc) hf,
          ih (n / 10) hdiv f [digitChar (n % 10)] hf, List.append_assoc]
        rfl

/-- The defining recurrence of `natToChars`. -/
theorem natToChars_eq (n : Nat) :
    natToChars n = if n < 10 then [digitChar n]
      else natToChars (n / 10) ++ [digitChar (n % 10)] := by
  unfold natToChars
  rw [natToCharsAux_succ]
  by_cases h10 : n < 10
  · simp [h10]
  · rw [if_neg h10, if_neg h10]
    have hdiv : n / 10 < n := Nat.div_lt_self (by omega) (by omega)
    rw [natToCharsAux_acc (n / 10) n [digitChar (n % 10)] hdiv,
      natToCharsAux_fuel (n / 10) n (n / 10 + 1) [] hdiv (by omega)]

/-- Decimal string of a natural number. -/
def natToString (n : Nat) : String := String.mk (natToChars n)

/-- Parse a non-empty all-digit character list as a decimal natural. -/
def parseNatChars (l : List Char) : Option Nat :=
  if l ≠ [] ∧ l.all Char.isDigit then
    some (l.foldl (fun acc c => acc * 10 + (c.toNat - 48)) 0)
  else none

theorem digitChar_isDigit (d : Nat) (h : d < 10) : (digitChar d).isDigit = true := by
  interval_cases d <;> decide

theorem digitChar_toNat (d : Nat) (h : d < 10) : (digitChar d).toNat - 48 = d := by
  interval_cases d <;> decide

theorem natToChars_ne_nil (n : Nat) : natToChars n ≠ [] := by
  rw [natToChars_eq]
  split
  · simp
  · simp

theorem natToChars_all_digits (n : Nat) : (natToChars n).all Char.isDigit = true := by
  induction n using Nat.strong_induction_on with
  | _ n ih =>
    rw [natToChars_eq]
    split
    · simp [digitChar_isDigit n (by omega)]
    · rename_i h
      rw [List.all_append, ih (n / 10) (Nat.div_lt_self (by omega) (by omega))]
      simp [digitChar_isDigit (n % 10) (Nat.mod_lt _ (by omega))]

/-- The decimal value computed by `parseNatChars`'s fold. -/
def charsVal (l : List Char) : Nat :=
  l.foldl (fun acc c => acc * 10 + (c.toNat - 48)) 0

theorem charsVal_append_digit (l : List Char) (c : Char) :
    charsVal (l ++ [c]) = charsVal l * 10 + (c.toNat - 48) := by
  unfold charsVal
  rw [List.foldl_append]
  rfl

theorem charsVal_foldl_acc (l : List Char) (a : Nat) :
    l.foldl (fun acc c => acc * 10 + (c.toNat - 48)) a =
      a * 10 ^ l.length + charsVal l := by
  induction l generalizing a with
  | nil => simp [charsVal]
  | cons c rest ih =>
    rw [List.foldl_cons, ih]
    have hc : charsVal (c :: rest) = (c.toNat - 48) * 10 ^ rest.length + charsVal rest := by
      unfold charsVal
      rw [List.foldl_cons, ih, ih]
      ring
    rw [hc, List.length_cons]
    ring

theorem charsVal_natToChars (n : Nat) : charsVal (natToChars n) = n := by
  induction n using Nat.strong_induction_on with
  | _ n ih =>
    rw [natToChars_eq]
    split
    · rename_i h
      show charsVal [digitChar n] = n
      unfold charsVal
      simp only [List.foldl_cons, List.foldl_nil]
      rw [digitChar_toNat n h]
      omega
    · rename_i h
      rw [charsVal_append_digit, ih (n / 10) (Nat.div_lt_self (by omega) (by omega)),
        digitChar_toNat (n % 10) (Nat.mod_lt _ (by omega))]
      omega

theorem parseNatChars_natToChars (n : Nat) : parseNatChars (natToChars n) = some n := by
  unfold parseNatChars
  rw [if_pos ⟨natToChars_ne_nil n, natToChars_all_digits n⟩]
  exact congrArg some (charsVal_natToChars n)

/-- Split a character list on a separator character (`strings.Split`). -/
def splitOnChar (sep : Char) : List Char → List (List Char)
  | [] => [[]]
  | x :: xs =>
    if x = sep then [] :: splitOnChar sep xs
    else
      match splitOnChar sep xs with
      | [] => [[x]]
      | y :: ys => (x :: y) :: ys

theorem splitOnChar_ne_nil (sep : Char) (l : List Char) : splitOnChar sep l ≠ [] := by
  induction l with
  | nil => simp [splitOnChar]
  | cons x xs ih =>
    rw [splitOnChar]
    by_cases h : x = sep
    · simp [h]
    · rw [if_neg h]
      cases hs : splitOnChar sep xs with
      | nil => simp
      | cons y ys => simp

theorem splitOnChar_of_not_mem (sep : Char) (l : List Char) (h : sep ∉ l) :
    splitOnChar sep l = [l] := by
  induction l with
  | nil => rfl
  | cons x xs ih =>
    rw [splitOnChar]
    have hx : x ≠ sep := fun hh => h (by simp [hh])
    rw [if_neg hx, ih (fun hh => h (List.mem_cons_of_mem _ hh))]

theorem splitOnChar_append (sep : Char) (a b : List Char) (h : sep ∉ a) :
    splitOnChar sep (a ++ sep :: b) = a :: splitOnChar sep b := by
  induction a with
  | nil => simp [splitOnChar]
  | cons x xs ih =>
    have hx : x ≠ sep := fun hh => h (by simp [hh])
    rw [List.cons_append, splitOnChar, if_neg hx,
      ih (fun hh => h (List.mem_cons_of_mem _ hh))]

/-- Rebuild a list from its separator split. -/
def joinSep (sep : Char) : List (List Char) → List Char
  | [] => []
  | [x] => x
  | x :: xs => x ++ sep :: joinSep sep xs

theorem joinSep_splitOnChar (sep : Char) (l : List Char) :
    joinSep sep (splitOnChar sep l) = l := by
  induction l with
  | nil => rfl
  | cons x xs ih =>
    rw [splitOnChar]
    by_cases h : x = sep
    · rw [if_pos h]
      cases hs : splitOnChar sep xs with
      | nil => exact absurd hs (splitOnChar_ne_nil sep xs)
      | cons y ys =>
        show sep :: joinSep sep (y :: ys) = x :: xs
        rw [← hs, ih, h]
    · rw [if_neg h]
      cases hs : splitOnChar sep xs with
      | nil => exact absurd hs (splitOnChar_ne_nil sep xs)
      | cons y ys =>
        cases ys with
        | nil =>
          show x :: y = x :: xs
          have : joinSep sep (splitOnChar sep xs) = xs := ih
          rw [hs] at this
          simp only [joinSep] at this
          rw [this]
        | cons z zs =>
          show (x :: y) ++ sep :: joinSep sep (z :: zs) = x :: xs
          have : joinSep sep (splitOnChar sep xs) = xs := ih
          rw [hs] at this
          show x :: (y ++ sep :: joinSep sep (z :: zs)) = x :: xs
          rw [show y ++ sep :: joinSep sep (z :: zs) = joinSep sep (y :: z :: zs) from rfl]
          rw [this]

/-- Trim leading and trailing whitespace (`strings.TrimSpace`). -/
def trimChars (l : List Char) : List Char :=
  ((l.dropWhile Char.isWhitespace).reverse.dropWhile Char.isWhitespace).reverse

theorem dropWhile_eq_self_of_all {p : Char → Bool} (l : List Char)
    (h : ∀ c ∈ l, p c = false) : l.dropWhile p = l := by
  cases l with
  | nil => rfl
  | cons x xs =>
    rw [List.dropWhile_cons, h x (by simp)]
    simp

theorem trimChars_eq_self (l : List Char)
    (h : ∀ c ∈ l, c.isWhitespace = false) : trimChars l = l := by
  unfold trimChars
  rw [dropWhile_eq_self_of_all l h,
    dropWhile_eq_self_of_all l.reverse (fun c hc => h c (List.mem_reverse.mp hc)),
    List.reverse_reverse]

/-- Parse a canonical `major.minor.patch` version from characters
(the `semver.NewVersion` fragment modelled here). -/
def parseVersionChars (l : List Char) : Option SemVer :=
  match splitOnChar '.' l with
  | [a, b, c] =>
    (parseNatChars a).bind (fun major =>
      (parseNatChars b).bind (fun minor =>
        (parseNatChars c).map (fun patch =>
          { major := major, minor := minor, patch := patch })))
  | _ => none

/-- `semver.NewVersion` on a string (canonical-triple fragment). -/
def parseVersion (s : String) : Option SemVer := parseVersionChars s.data

/-- Characters of the version triple `M.m.p` rendered by `natToString`- style
formatting. -/
def semVerChars (v : SemVer) : List Char :=
  natToChars v.major ++ ('.' :: (natToChars v.minor ++ ('.' :: natToChars v.patch)))

theorem parseVersionChars_semVerChars (v : SemVer) :
    parseVersionChars (semVerChars v) = some v := by
  have hdot : ∀ n : Nat, ('.' : Char) ∉ natToChars n := by
    intro n hmem
    have hall := natToChars_all_digits n
    rw [List.all_eq_true] at hall
    have := hall _ hmem
    simp at this
  have hs : splitOnChar '.' (semVerChars v) =
      [natToChars v.major, natToChars v.minor, natToChars v.patch] := by
    unfold semVerChars
    rw [splitOnChar_append '.' (natToChars v.major) _ (hdot v.major),
      splitOnChar_append '.' (natToChars v.minor) _ (hdot v.minor),
      splitOnChar_of_not_mem '.' (natToChars v.patch) (hdot v.patch)]
  unfold parseVersionChars
  rw [hs]
  show (parseNatChars (natToChars v.major)).bind (fun major =>
      (parseNatChars (natToChars v.minor)).bind (fun minor =>
        (parseNatChars (natToChars v.patch)).map (fun patch =>
          ({ major := major, minor := minor, patch := patch } : SemVer)))) = some v
  rw [parseNatChars_natToChars, parseNatChars_natToChars, parseNatChars_natToChars]
  rfl

theorem parseNatChars_all_digits (l : List Char) (n : Nat)
    (h : parseNatChars l = some n) : l ≠ [] ∧ ∀ c ∈ l, c.isDigit = true := by
  unfold parseNatChars at h
  split at h
  · rename_i hcond
    obtain ⟨h1, h2⟩ := hcond
    rw [List.all_eq_true] at h2
    exact ⟨h1, h2⟩
  · cases h

/-- Every character of a parseable version string is a digit or a dot. -/
theorem parseVersionChars_chars (l : List Char) (v : SemVer)
    (h : parseVersionChars l = some v) :
    ∀ c ∈ l, c.isDigit = true ∨ c = '.' := by
  unfold parseVersionChars at h
  cases hs : splitOnChar '.' l with
  | nil => rw [hs] at h; exact Option.noConfusion h
  | cons a tail =>
    rw [hs] at h
    cases tail with
    | nil => exact Option.noConfusion h
    | cons b tail2 =>
      cases tail2 with
      | nil => exact Option.noConfusion h
      | cons c tail3 =>
        cases tail3 with
        | cons d rest => exact Option.noConfusion h
        | nil =>
          have h2 : (parseNatChars a).bind (fun major =>
              (parseNatChars b).bind (fun minor =>
                (parseNatChars c).map (fun patch =>
                  ({ major := major, minor := minor, patch := patch } : SemVer)))) =
              some v := h
          clear h
          cases ha : parseNatChars a with
          | none => rw [ha] at h2; exact Option.noConfusion h2
          | some ma =>
            rw [ha, Option.some_bind] at h2
            cases hb : parseNatChars b with
            | none => rw [hb] at h2; exact Option.noConfusion h2
            | some mb =>
              rw [hb, Option.some_bind] at h2
              cases hc : parseNatChars c with
              | none => rw [hc] at h2; exact Option.noConfusion h2
              | some mc =>
                have hl : l = a ++ '.' :: (b ++ '.' :: c) := by
                  have hj := joinSep_splitOnChar '.' l
                  rw [hs] at hj
                  exact hj.symm
                intro ch hch
                rw [hl] at hch
                rcases List.mem_append.mp hch with h1 | h2
                · exact Or.inl ((parseNatChars_all_digits a ma ha).2 ch h1)
                · rcases List.mem_cons.mp h2 with h3 | h4
                  · exact Or.inr h3
                  · rcases List.mem_append.mp h4 with h5 | h6
                    · exact Or.inl ((parseNatChars_all_digits b mb hb).2 ch h5)
                    · rcases List.mem_cons.mp h6 with h7 | h8
                      · exact Or.inr h7
                      · exact Or.inl ((parseNatChars_all_digits c mc hc).2 ch h8)

theorem digit_not_whitespace (c : Char) (h : c.isDigit = true) :
    c.isWhitespace = false := by
  by_contra hw
  rw [Bool.not_eq_false] at hw
  simp only [Char.isWhitespace, Bool.or_eq_true, decide_eq_true_eq] at hw
  simp only [Char.isDigit, Bool.and_eq_true, decide_eq_true_eq] at h
  rcases hw with ((hw | hw) | hw) | hw <;> rw [hw] at h <;> revert h <;> decide


theorem version_char_not_whitespace (c : Char) (h : c.isDigit = true ∨ c = '.') :
    c.isWhitespace = false := by
  rcases h with h | h
  · exact digit_not_whitespace c h
  · rw [h]; decide

/-- Comparator operators of the Masterminds constraint grammar. -/
inductive CompOp where
  | ge
  | gt
  | le
  | lt
  | eqv
  | neq
  | caret
  | tilde
deriving DecidableEq, Repr

/-- Semantics of one comparator clause `<op><v>` checked against a version. -/
def opPred (op : CompOp) (v : SemVer) (w : SemVer) : Bool :=
  match op with
  | CompOp.ge => decide (v ≤ w)
  | CompOp.gt => decide (v < w)
  | CompOp.le => decide (w ≤ v)
  | CompOp.lt => decide (w < v)
  | CompOp.eqv => decide (w = v)
  | CompOp.neq => decide (w ≠ v)
  | CompOp.caret =>
    let upper : SemVer :=
      if v.major > 0 then { major := v.major + 1, minor := 0, patch := 0 }
      else if v.minor > 0 then { major := 0, minor := v.minor + 1, patch := 0 }
      else { major := 0, minor := 0, patch := v.patch + 1 }
    decide (v ≤ w) && decide (w < upper)
  | CompOp.tilde =>
    decide (v ≤ w) &&
      decide (w < { major := v.major, minor := v.minor + 1, patch := 0 })

/-- Parse the version part of a clause and attach the comparator semantics. -/
def clauseOf (op : CompOp) (rest : List Char) : Option (SemVer → Bool) :=
  (parseVersionChars (trimChars rest)).map (opPred op)

/-- Recognize the comparator prefix of a trimmed clause (a bare version means
equality). -/
def parseClauseCore : List Char → Option (SemVer → Bool)
  | c1 :: c2 :: rest =>
    if c1 = '>' ∧ c2 = '=' then clauseOf CompOp.ge rest
    else if c1 = '<' ∧ c2 = '=' then clauseOf CompOp.le rest
    else if c1 = '=' ∧ c2 = '=' then clauseOf CompOp.eqv rest
    else if c1 = '!' ∧ c2 = '=' then clauseOf CompOp.neq rest
    else if c1 = '>' then clauseOf CompOp.gt (c2 :: rest)
    else if c1 = '<' then clauseOf CompOp.lt (c2 :: rest)
    else if c1 = '=' then clauseOf CompOp.eqv (c2 :: rest)
    else if c1 = '^' then clauseOf CompOp.caret (c2 :: rest)
    else if c1 = '~' then clauseOf CompOp.tilde (c2 :: rest)
    else clauseOf CompOp.eqv (c1 :: c2 :: rest)
  | l => clauseOf CompOp.eqv l

/-- Parse one comparator clause of a constraint expression. -/
def parseClause (l : List Char) : Option (SemVer → Bool) :=
  parseClauseCore (trimChars l)

/-- Parse a comma-separated clause list as a conjunction. -/
def parseClauses : List (List Char) → Option (SemVer → Bool)
  | [] => some (fun _ => true)
  | c :: rest =>
    (parseClause c).bind (fun p =>
      (parseClauses rest).map (fun q => fun w => p w && q w))

/-- `semver.NewConstraint` (comma-conjunction fragment of the Masterminds
grammar; each clause is an optional comparator followed by a version). -/
def parseConstraint (s : String) : Option (SemVer → Bool) :=
  parseClauses (splitOnChar ',' s.data)

/-- `strings.ContainsAny(versionExpr, constraintOps)` from `resolveVersion`. -/
def hasConstraintOps (s : String) : Bool :=
  s.data.any (fun c => c = '<' || c = '>' || c = '=' || c = '~' || c = '^' || c = ',')

/-- `model.IndexVersion` from internal/model. -/
structure IndexVersion where
  manifestPath : String := ""
  sha256 : String := ""
  sigPath : String := ""
  certPath : String := ""
deriving DecidableEq, Repr

/-- `model.IndexPackage` from internal/model. -/
structure IndexPackage where
  description : String := ""
  versions : List (String × IndexVersion)
deriving DecidableEq, Repr

/-- The distinct error cases of version resolution and upgrade resolution
(modelling the distinct Go error messages). -/
inductive ResolveErr where
  | noVersions
  | versionNotFound (expr : String)
  | badConstraint (expr : String)
  | noSatisfying (constraintExpr : String)
  | parseCurrent (v : String)
  | parseResolved (v : String)
deriving DecidableEq, Repr

/-- Descending precedence order on (original, parsed, meta) candidates, as
produced by `sort.Sort(sort.Reverse(semver.Collection(versions)))`. -/
def versionGE (a b : String × SemVer × IndexVersion) : Prop :=
  b.2.1 ≤ a.2.1

instance : DecidableRel versionGE := fun a b => by
  unfold versionGE
  infer_instance

instance : IsTotal (String × SemVer × IndexVersion) versionGE :=
  ⟨fun a b => le_total b.2.1 a.2.1⟩

instance : IsTrans (String × SemVer × IndexVersion) versionGE :=
  ⟨fun _ _ _ hab hbc => le_trans hbc hab⟩

/-- The constraint expression actually parsed: an empty version expression
defaults to `>=0.0.0`. -/
def constraintExprOf (versionExpr : String) : String :=
  if versionExpr = "" then ">=0.0.0" else versionExpr

/-- The parseable catalog candidates of a package: non-parseable version
strings are silently dropped (`semver.NewVersion` error => `continue`). -/
def candidatesOf (pkg : IndexPackage) : List (String × SemVer × IndexVersion) :=
  pkg.versions.filterMap (fun p => (parseVersion p.1).map (fun v => (p.1, v, p.2)))

/-- `resolveVersion` from internal/registry/registry.go: an exact version token
(no constraint operators) is looked up directly; otherwise the expression is
parsed as a semver range and the highest parseable catalog version satisfying
it is selected (descending sort, first hit). -/
def resolveVersion (pkg : IndexPackage) (versionExpr : String) :
    Except ResolveErr (String × IndexVersion) :=
  if pkg.versions = [] then Except.error ResolveErr.noVersions
  else if versionExpr ≠ "" ∧ hasConstraintOps versionExpr = false then
    match alookup pkg.versions versionExpr with
    | none => Except.error (ResolveErr.versionNotFound versionExpr)
    | some meta => Except.ok (versionExpr, meta)
  else
    match parseConstraint (constraintExprOf versionExpr) with
    | none => Except.error (ResolveErr.badConstraint versionExpr)
    | some check =>
      match ((candidatesOf pkg).insertionSort versionGE).find?
          (fun q => check q.2.1) with
      | some q => Except.ok (q.1, q.2.2)
      | none => Except.error (ResolveErr.noSatisfying (constraintExprOf versionExpr))

theorem find_sorted_desc (l : List (String × SemVer × IndexVersion))
    (p : (String × SemVer × IndexVersion) → Bool) (q : String × SemVer × IndexVersion)
    (hs : List.Sorted versionGE l) (hf : l.find? p = some q) :
    p q = true ∧ ∀ r ∈ l, p r = true → r.2.1 ≤ q.2.1 := by
  induction l with
  | nil => simp at hf
  | cons a rest ih =>
    rw [List.sorted_cons] at hs
    obtain ⟨ha, hrest⟩ := hs
    rw [List.find?_cons] at hf
    cases hpa : p a with
    | true =>
      rw [hpa] at hf
      cases hf
      refine ⟨hpa, ?_⟩
      intro r hr _
      rcases List.mem_cons.mp hr with rfl | hr2
      · exact le_refl _
      · exact ha r hr2
    | false =>
      rw [hpa] at hf
      obtain ⟨hq, hmax⟩ := ih hrest hf
      refine ⟨hq, ?_⟩
      intro r hr hpr
      rcases List.mem_cons.mp hr with rfl | hr2
      · rw [hpa] at hpr; cases hpr
      · exact hmax r hr2 hpr

theorem mem_candidatesOf (pkg : IndexPackage) (q : String × SemVer × IndexVersion) :
    q ∈ candidatesOf pkg ↔
      (q.1, q.2.2) ∈ pkg.versions ∧ parseVersion q.1 = some q.2.1 := by
  unfold candidatesOf
  rw [List.mem_filterMap]
  constructor
  · rintro ⟨p0, hmem, hmap⟩
    cases hv : parseVersion p0.1 with
    | none => rw [hv] at hmap; cases hmap
    | some v =>
      rw [hv, Option.map_some'] at hmap
      cases hmap
      exact ⟨hmem, hv⟩
  · rintro ⟨hmem, hv⟩
    refine ⟨(q.1, q.2.2), hmem, ?_⟩
    rw [hv, Option.map_some']

/-- Catalog metadata for the concrete resolution example. -/
def metaW1 : IndexVersion := { manifestPath := "p/1.0.0.json" }

/-- Catalog metadata for the concrete resolution example. -/
def metaW2 : IndexVersion := { manifestPath := "p/1.2.0.json" }

/-- Catalog metadata for the concrete resolution example. -/
def metaW3 : IndexVersion := { manifestPath := "p/2.0.0.json" }

/-- The catalog package with versions 1.0.0, 1.2.0 and 2.0.0. -/
def pkg312 : IndexPackage :=
  { versions := [("1.0.0", metaW1), ("1.2.0", metaW2), ("2.0.0", metaW3)] }

/-- Shared characterization of `resolveVersion` on the range path (used by
both the resolution and the upgrade claims). -/
theorem resolveVersion_spec (pkg : IndexPackage) (versionExpr : String)
    (check : SemVer → Bool)
    (hpkg : pkg.versions ≠ [])
    (hrange : versionExpr = "" ∨ hasConstraintOps versionExpr = true)
    (hparse : parseConstraint (constraintExprOf versionExpr) = some check) :
    (∀ raw meta, resolveVersion pkg versionExpr = Except.ok (raw, meta) →
      (raw, meta) ∈ pkg.versions ∧
      ∃ v, parseVersion raw = some v ∧ check v = true ∧
        ∀ q ∈ pkg.versions, ∀ w, parseVersion q.1 = some w → check w = true →
          w ≤ v) ∧
    ((∃ r, resolveVersion pkg versionExpr = Except.ok r) ∨
      resolveVersion pkg versionExpr =
        Except.error (ResolveErr.noSatisfying (constraintExprOf versionExpr))) ∧
    (resolveVersion pkg versionExpr =
        Except.error (ResolveErr.noSatisfying (constraintExprOf versionExpr)) ↔
      ∀ q ∈ pkg.versions, ∀ w, parseVersion q.1 = some w → check w = false) ∧
    resolveVersion pkg312 ">=1.0.0, <2.0.0" = Except.ok ("1.2.0", metaW2) := by
  have hcond : ¬ (versionExpr ≠ "" ∧ hasConstraintOps versionExpr = false) := by
    rcases hrange with h | h
    · intro hc
      exact hc.1 h
    · intro hc
      rw [h] at hc
      cases hc.2
  have hres : resolveVersion pkg versionExpr =
      match ((candidatesOf pkg).insertionSort versionGE).find?
          (fun q => check q.2.1) with
      | some q => Except.ok (q.1, q.2.2)
      | none => Except.error (ResolveErr.noSatisfying (constraintExprOf versionExpr)) := by
    unfold resolveVersion
    rw [if_neg hpkg, if_neg hcond, hparse]
  have hperm := List.perm_insertionSort versionGE (candidatesOf pkg)
  cases hfind : ((candidatesOf pkg).insertionSort versionGE).find?
      (fun q => check q.2.1) with
  | some q =>
    have hok : resolveVersion pkg versionExpr = Except.ok (q.1, q.2.2) := by
      rw [hres, hfind]
    have hsorted := List.sorted_insertionSort versionGE (candidatesOf pkg)
    obtain ⟨hq, hmax⟩ := find_sorted_desc _ _ q hsorted hfind
    have hqmem : q ∈ candidatesOf pkg :=
      hperm.mem_iff.mp (List.mem_of_find?_eq_some hfind)
    obtain ⟨hmemv, hparseq⟩ := (mem_candidatesOf pkg q).mp hqmem
    refine ⟨?_, Or.inl ⟨(q.1, q.2.2), hok⟩, ?_, rfl⟩
    · intro raw meta h
      rw [hok] at h
      injection h with h2
      obtain ⟨rfl, rfl⟩ := Prod.mk.injEq .. ▸ h2.symm
      refine ⟨hmemv, q.2.1, hparseq, by simpa using hq, ?_⟩
      intro q' hq' w hw hcw
      have hc : (q'.1, w, q'.2) ∈ candidatesOf pkg := by
        rw [mem_candidatesOf]
        exact ⟨hq', hw⟩
      have := hmax (q'.1, w, q'.2) (hperm.mem_iff.mpr hc) (by simpa using hcw)
      simpa using this
    · constructor
      · intro h
        rw [hok] at h
        cases h
      · intro hall
        have := hall (q.1, q.2.2) hmemv q.2.1 hparseq
        rw [show check q.2.1 = true from by simpa using hq] at this
        cases this
  | none =>
    have herr : resolveVersion pkg versionExpr =
        Except.error (ResolveErr.noSatisfying (constraintExprOf versionExpr)) := by
      rw [hres, hfind]
    have hnone := List.find?_eq_none.mp hfind
    refine ⟨?_, Or.inr herr, ?_, rfl⟩
    · intro raw meta h
      rw [herr] at h
      cases h
    · constructor
      · intro _ q' hq' w hw
        have hc : (q'.1, w, q'.2) ∈ candidatesOf pkg := by
          rw [mem_candidatesOf]
          exact ⟨hq', hw⟩
        have := hnone (q'.1, w, q'.2) (hperm.mem_iff.mpr hc)
        simpa using this
      · intro _
        exact herr

/-- C2 (amended): on the range path, `resolveVersion` returns a parseable
catalog version satisfying the parsed range that is maximal among all
parseable satisfying catalog versions, and it returns the "no version
satisfies" error exactly when no parseable catalog version satisfies the
range — provided the package has at least one version entry (an empty package
yields the distinct "package has no versions" error instead). In particular
versions 1.0.0, 1.2.0, 2.0.0 with range >=1.0.0, <2.0.0 resolve to 1.2.0. -/
theorem resolveVersion_max (pkg : IndexPackage) (versionExpr : String)
    (check : SemVer → Bool)
    (hpkg : pkg.versions ≠ [])
    (hrange : versionExpr = "" ∨ hasConstraintOps versionExpr = true)
    (hparse : parseConstraint (constraintExprOf versionExpr) = some check) :
    (∀ raw meta, resolveVersion pkg versionExpr = Except.ok (raw, meta) →
      (raw, meta) ∈ pkg.versions ∧
      ∃ v, parseVersion raw = some v ∧ check v = true ∧
        ∀ q ∈ pkg.versions, ∀ w, parseVersion q.1 = some w → check w = true →
          w ≤ v) ∧
    ((∃ r, resolveVersion pkg versionExpr = Except.ok r) ∨
      resolveVersion pkg versionExpr =
        Except.error (ResolveErr.noSatisfying (constraintExprOf versionExpr))) ∧
    (resolveVersion pkg versionExpr =
        Except.error (ResolveErr.noSatisfying (constraintExprOf versionExpr)) ↔
      ∀ q ∈ pkg.versions, ∀ w, parseVersion q.1 = some w → check w = false) ∧
    resolveVersion pkg312 ">=1.0.0, <2.0.0" = Except.ok ("1.2.0", metaW2) :=
  resolveVersion_spec pkg versionExpr check hpkg hrange hparse

/-- Counterexample for C2 as stated: a catalog package with no version entries
yields the distinct "package has no versions" error, not the "no version
satisfies" error, even though no parseable version satisfies the range. -/
theorem resolveVersion_counterexample :
    resolveVersion { versions := [] } ">=1.0.0" = Except.error ResolveErr.noVersions ∧
    ResolveErr.noVersions ≠ ResolveErr.noSatisfying (constraintExprOf ">=1.0.0") :=
  ⟨rfl, by decide⟩

/-- Witness for C2: the amended claim evaluated on the concrete 3-version
catalog of the claim text. -/
theorem resolveVersion_max_witness :
    resolveVersion pkg312 ">=1.0.0, <2.0.0" = Except.ok ("1.2.0", metaW2) :=
  (resolveVersion_max pkg312 ">=1.0.0, <2.0.0"
    (fun w => opPred CompOp.ge { major := 1, minor := 0, patch := 0 } w &&
      (opPred CompOp.lt { major := 2, minor := 0, patch := 0 } w && true))
    (by decide) (Or.inr (by decide)) rfl).2.2.2

theorem SemVer.le_iff (a b : SemVer) :
    a ≤ b ↔ (a.major < b.major ∨ (a.major = b.major ∧
      (a.minor < b.minor ∨ (a.minor = b.minor ∧ a.patch ≤ b.patch)))) := by
  show SemVer.key a ≤ SemVer.key b ↔ _
  rw [SemVer.key, SemVer.key, Prod.Lex.le_iff, Prod.Lex.le_iff]

theorem SemVer.lt_iff (a b : SemVer) :
    a < b ↔ (a.major < b.major ∨ (a.major = b.major ∧
      (a.minor < b.minor ∨ (a.minor = b.minor ∧ a.patch < b.patch)))) := by
  show SemVer.key a < SemVer.key b ↔ _
  rw [SemVer.key, SemVer.key, Prod.Lex.lt_iff, Prod.Lex.lt_iff]

theorem SemVer.major_le_of_lt_bound (pr : SemVer) (M : Nat)
    (h : pr < { major := M + 1, minor := 0, patch := 0 }) : pr.major ≤ M := by
  rw [SemVer.lt_iff] at h
  rcases h with h | ⟨h1, h2⟩
  · have h3 : pr.major < M + 1 := h
    omega
  · rcases h2 with h2 | ⟨h3, h4⟩
    · have h5 : pr.minor < 0 := h2
      omega
    · have h5 : pr.patch < 0 := h4
      omega

/-- The characters of the literal suffix `.0.0`. -/
def dotZeroZero : List Char := ['.', '0', '.', '0']

theorem trimChars_space (l : List Char) : trimChars (' ' :: l) = trimChars l := by
  unfold trimChars
  rw [List.dropWhile_cons]
  simp

theorem parseClause_ge (cur : List Char) (pc : SemVer)
    (hc : parseVersionChars cur = some pc) :
    parseClause ('>' :: '=' :: cur) = some (opPred CompOp.ge pc) := by
  have hcws : ∀ c ∈ cur, c.isWhitespace = false := fun c hm =>
    version_char_not_whitespace c (parseVersionChars_chars cur pc hc c hm)
  have hnws : ∀ c ∈ ('>' :: '=' :: cur), c.isWhitespace = false := by
    intro c hmem
    rcases List.mem_cons.mp hmem with rfl | hmem2
    · decide
    · rcases List.mem_cons.mp hmem2 with rfl | hmem3
      · decide
      · exact hcws c hmem3
  unfold parseClause
  rw [trimChars_eq_self _ hnws]
  have hcore : parseClauseCore ('>' :: '=' :: cur) = clauseOf CompOp.ge cur := rfl
  rw [hcore]
  unfold clauseOf
  rw [trimChars_eq_self cur hcws, hc]
  rfl

theorem parseClause_lt_bound (M : Nat) :
    parseClause (' ' :: '<' :: (natToChars M ++ dotZeroZero))
      = some (opPred CompOp.lt { major := M, minor := 0, patch := 0 }) := by
  have hver : parseVersionChars (natToChars M ++ dotZeroZero)
      = some { major := M, minor := 0, patch := 0 } :=
    parseVersionChars_semVerChars { major := M, minor := 0, patch := 0 }
  have hK : ∀ c ∈ natToChars M, c.isDigit = true := by
    have hall := natToChars_all_digits M
    rw [List.all_eq_true] at hall
    exact hall
  have hbody : ∀ c ∈ natToChars M ++ dotZeroZero, c.isWhitespace = false := by
    intro c hmem
    rcases List.mem_append.mp hmem with h1 | h2
    · exact digit_not_whitespace c (hK c h1)
    · simp only [dotZeroZero, List.mem_cons, List.not_mem_nil, or_false] at h2
      rcases h2 with rfl | rfl | rfl | rfl <;> decide
  have hnws : ∀ c ∈ ('<' :: (natToChars M ++ dotZeroZero)), c.isWhitespace = false := by
    intro c hmem
    rcases List.mem_cons.mp hmem with rfl | hmem2
    · decide
    · exact hbody c hmem2
  unfold parseClause
  rw [trimChars_space, trimChars_eq_self _ hnws]
  cases hKc : natToChars M with
  | nil => exact absurd hKc (natToChars_ne_nil M)
  | cons k0 K2 =>
    have hk0 : k0.isDigit = true := hK k0 (by rw [hKc]; simp)
    show parseClauseCore ('<' :: k0 :: (K2 ++ dotZeroZero)) =
      some (opPred CompOp.lt { major := M, minor := 0, patch := 0 })
    have hcore : parseClauseCore ('<' :: k0 :: (K2 ++ dotZeroZero)) =
        (if ('<' : Char) = '<' ∧ k0 = '=' then clauseOf CompOp.le (K2 ++ dotZeroZero)
         else clauseOf CompOp.lt (k0 :: (K2 ++ dotZeroZero))) := rfl
    rw [hcore, if_neg (by
      intro hh
      rw [hh.2] at hk0
      exact absurd hk0 (by decide))]
    unfold clauseOf
    have hback : (k0 :: (K2 ++ dotZeroZero)) = natToChars M ++ dotZeroZero := by
      rw [hKc, List.cons_append]
    rw [hback, trimChars_eq_self _ hbody, hver]
    rfl

theorem upgradeExpr_data (cur : String) (M : Nat) :
    (">=" ++ cur ++ ", <" ++ natToString M ++ ".0.0").data =
      ('>' :: '=' :: cur.data) ++ ',' :: (' ' :: '<' :: (natToChars M ++ dotZeroZero)) := by
  simp only [String.data_append]
  show ('>' :: '=' :: []) ++ cur.data ++ (',' :: ' ' :: '<' :: []) ++
      natToChars M ++ ('.' :: '0' :: '.' :: '0' :: []) = _
  simp [dotZeroZero]

theorem upgradeExpr_hasOps (cur : String) (M : Nat) :
    hasConstraintOps (">=" ++ cur ++ ", <" ++ natToString M ++ ".0.0") = true := by
  unfold hasConstraintOps
  rw [upgradeExpr_data, List.any_eq_true]
  refine ⟨'>', ?_, by decide⟩
  simp

theorem upgradeExpr_ne_empty (cur : String) (M : Nat) :
    (">=" ++ cur ++ ", <" ++ natToString M ++ ".0.0") ≠ "" := by
  intro h
  have hd := upgradeExpr_data cur M
  rw [h] at hd
  cases hd

theorem parseConstraint_upgradeExpr (cur : String) (pc : SemVer) (M : Nat)
    (hcur : parseVersion cur = some pc) :
    parseConstraint (">=" ++ cur ++ ", <" ++ natToString M ++ ".0.0") =
      some (fun w => opPred CompOp.ge pc w &&
        (opPred CompOp.lt { major := M, minor := 0, patch := 0 } w && true)) := by
  have hvchars : ∀ c ∈ cur.data, c.isDigit = true ∨ c = '.' :=
    parseVersionChars_chars cur.data pc hcur
  have hcomma1 : (',' : Char) ∉ ('>' :: '=' :: cur.data) := by
    intro hmem
    rcases List.mem_cons.mp hmem with h1 | hmem2
    · cases h1
    · rcases List.mem_cons.mp hmem2 with h1 | hmem3
      · cases h1
      · rcases hvchars ',' hmem3 with h1 | h1
        · exact absurd h1 (by decide)
        · cases h1
  have hcomma2 : (',' : Char) ∉ (' ' :: '<' :: (natToChars M ++ dotZeroZero)) := by
    intro hmem
    rcases List.mem_cons.mp hmem with h1 | hmem2
    · cases h1
    · rcases List.mem_cons.mp hmem2 with h1 | hmem3
      · cases h1
      · rcases List.mem_append.mp hmem3 with h1 | h1
        · have hall := natToChars_all_digits M
          rw [List.all_eq_true] at hall
          exact absurd (hall _ h1) (by decide)
        · simp only [dotZeroZero, List.mem_cons, List.not_mem_nil, or_false] at h1
          rcases h1 with h1 | h1 | h1 | h1 <;> cases h1
  unfold parseConstraint
  rw [upgradeExpr_data, splitOnChar_append ',' _ _ hcomma1,
    splitOnChar_of_not_mem ',' _ hcomma2]
  unfold parseClauses
  rw [parseClause_ge cur.data pc hcur]
  unfold parseClauses
  rw [parseClause_lt_bound M]
  rfl

/-- The target-expression computation of `ResolveUpgrade`: unconstrained when
major upgrades are allowed, otherwise `>=current, <nextMajor`. -/
def upgradeTargetExpr (currentVersion : String) (allowMajor : Bool) :
    Except ResolveErr String :=
  if allowMajor then Except.ok ""
  else
    match parseVersion currentVersion with
    | none => Except.error (ResolveErr.parseCurrent currentVersion)
    | some v =>
      Except.ok (">=" ++ currentVersion ++ ", <" ++
        natToString (v.major + 1) ++ ".0.0")

/-- `ResolveUpgrade` from internal/registry/registry.go, restricted to its
version-selection core. `fetch` abstracts the manifest read, hash check,
trust verification and validation that `ResolveFromTap` performs after
selecting the version (those steps do not alter the selected version). -/
def resolveUpgradeVersion (pkg : IndexPackage)
    (fetch : String → IndexVersion → Except ResolveErr Unit)
    (currentVersion : String) (allowMajor : Bool) :
    Except ResolveErr (Option String × Bool) :=
  match upgradeTargetExpr currentVersion allowMajor with
  | Except.error e => Except.error e
  | Except.ok targetExpr =>
    match resolveVersion pkg targetExpr with
    | Except.error e => Except.error e
    | Except.ok rm =>
      match fetch rm.1 rm.2 with
      | Except.error e => Except.error e
      | Except.ok _ =>
        match parseVersion currentVersion with
        | none => Except.error (ResolveErr.parseCurrent currentVersion)
        | some c =>
          match parseVersion rm.1 with
          | none => Except.error (ResolveErr.parseResolved rm.1)
          | some r =>
            if c < r then Except.ok (some rm.1, true)
            else Except.ok (none, false)

/-- The catalog package with versions 1.0.0 and 2.0.0 (major jump only). -/
def pkgUp : IndexPackage := { versions := [("1.0.0", metaW1), ("2.0.0", metaW3)] }

/-- A fetch oracle whose manifest steps always succeed. -/
def upFetch : String → IndexVersion → Except ResolveErr Unit := fun _ _ => Except.ok ()

/-- C6: with allowMajor=false, ResolveUpgrade resolves under `>=current,
<nextMajor` and therefore never returns a version crossing a major boundary
above the current version (with allowMajor=true it may, as the concrete major
jump shows), and it reports upgraded=false with no error whenever the resolved
version is not strictly greater than the current version. -/
theorem resolveUpgrade_major_boundary (pkg : IndexPackage)
    (fetch : String → IndexVersion → Except ResolveErr Unit) (cur : String) :
    (∀ raw, resolveUpgradeVersion pkg fetch cur false = Except.ok (some raw, true) →
      ∃ pc pr, parseVersion cur = some pc ∧ parseVersion raw = some pr ∧
        pc ≤ pr ∧ pc < pr ∧ pr.major ≤ pc.major) ∧
    (∀ (allowMajor : Bool) (pc : SemVer) (rm : String × IndexVersion) (pr : SemVer),
      parseVersion cur = some pc →
      resolveVersion pkg (if allowMajor then "" else (">=" ++ cur ++ ", <" ++
        natToString (pc.major + 1) ++ ".0.0")) = Except.ok rm →
      fetch rm.1 rm.2 = Except.ok () →
      parseVersion rm.1 = some pr → ¬ pc < pr →
      resolveUpgradeVersion pkg fetch cur allowMajor = Except.ok (none, false)) ∧
    (parseVersion "1.0.0" = some { major := 1, minor := 0, patch := 0 } ∧
     parseVersion "2.0.0" = some { major := 2, minor := 0, patch := 0 } ∧
     resolveUpgradeVersion pkgUp upFetch "1.0.0" true = Except.ok (some "2.0.0", true)) := by
  refine ⟨?_, ?_, rfl, rfl, rfl⟩
  · intro raw h
    cases hpc : parseVersion cur with
    | none =>
      unfold resolveUpgradeVersion upgradeTargetExpr at h
      rw [if_neg (by decide), hpc] at h
      exact Except.noConfusion h
    | some pc =>
      have hte : upgradeTargetExpr cur false = Except.ok (">=" ++ cur ++ ", <" ++
          natToString (pc.major + 1) ++ ".0.0") := by
        unfold upgradeTargetExpr
        rw [if_neg (by decide), hpc]
      unfold resolveUpgradeVersion at h
      rw [hte] at h
      cases hrv : resolveVersion pkg (">=" ++ cur ++ ", <" ++
          natToString (pc.major + 1) ++ ".0.0") with
      | error e =>
        simp only [hrv] at h
        exact Except.noConfusion h
      | ok rm =>
        simp only [hrv] at h
        cases hft : fetch rm.1 rm.2 with
        | error e =>
          simp only [hft] at h
          exact Except.noConfusion h
        | ok u =>
          simp only [hft, hpc] at h
          cases hpr : parseVersion rm.1 with
          | none =>
            simp only [hpr] at h
            exact Except.noConfusion h
          | some pr =>
            simp only [hpr] at h
            by_cases hlt : pc < pr
            · rw [if_pos hlt] at h
              injection h with h2
              have hraw : rm.1 = raw := by
                have h3 := congrArg Prod.fst h2
                simpa using h3
              have hpkg : pkg.versions ≠ [] := by
                intro hnil
                unfold resolveVersion at hrv
                rw [if_pos hnil] at hrv
                cases hrv
              have hne := upgradeExpr_ne_empty cur (pc.major + 1)
              have hparse : parseConstraint (constraintExprOf (">=" ++ cur ++ ", <" ++
                  natToString (pc.major + 1) ++ ".0.0")) =
                  some (fun w => opPred CompOp.ge pc w &&
                    (opPred CompOp.lt { major := pc.major + 1, minor := 0, patch := 0 } w
                      && true)) := by
                unfold constraintExprOf
                rw [if_neg hne]
                exact parseConstraint_upgradeExpr cur pc (pc.major + 1) hpc
              obtain ⟨hmem, v, hpv, hcv, hmax⟩ :=
                (resolveVersion_spec pkg _ _ hpkg
                  (Or.inr (upgradeExpr_hasOps cur (pc.major + 1))) hparse).1
                  rm.1 rm.2 hrv
              have hvpr : v = pr := by
                rw [hpv] at hpr
                exact Option.some.inj hpr
              subst hvpr
              rw [Bool.and_eq_true, Bool.and_eq_true] at hcv
              obtain ⟨h5, h6, -⟩ := hcv
              have hple : pc ≤ v := by simpa [opPred] using h5
              have hbound : v < { major := pc.major + 1, minor := 0, patch := 0 } := by
                simpa [opPred] using h6
              rw [hraw] at hpv
              exact ⟨pc, v, rfl, hpv, hple, hlt,
                SemVer.major_le_of_lt_bound v pc.major hbound⟩
            · rw [if_neg hlt] at h
              injection h with h2
              have h3 := congrArg Prod.fst h2
              simp at h3
  · intro allowMajor pc rm pr hpc2 hrv hft hpr hnlt
    cases allowMajor with
    | false =>
      rw [if_neg (by decide)] at hrv
      have hte : upgradeTargetExpr cur false = Except.ok (">=" ++ cur ++ ", <" ++
          natToString (pc.major + 1) ++ ".0.0") := by
        unfold upgradeTargetExpr
        rw [if_neg (by decide), hpc2]
      unfold resolveUpgradeVersion
      rw [hte]
      simp only [hrv, hft, hpc2, hpr, if_neg hnlt]
    | true =>
      rw [if_pos rfl] at hrv
      have hte : upgradeTargetExpr cur true = Except.ok "" := by
        unfold upgradeTargetExpr
        rw [if_pos rfl]
      unfold resolveUpgradeVersion
      rw [hte]
      simp only [hrv, hft, hpc2, hpr, if_neg hnlt]

/-- Witness for C6: a concrete minor upgrade under allowMajor=false stays
within the current major. -/
theorem resolveUpgrade_major_boundary_witness :
    ∃ pc pr, parseVersion "1.0.0" = some pc ∧ parseVersion "1.2.0" = some pr ∧
      pc ≤ pr ∧ pc < pr ∧ pr.major ≤ pc.major :=
  (resolveUpgrade_major_boundary pkg312 upFetch "1.0.0").1 "1.2.0" rfl

/-! ### Manifest validation (registry package) -/

/-- `model.SetupCommand`: a command vector, an optional extraction pattern
and a description (fields as used by the registry and service packages). -/
structure SetupCommand where
  run : List String := []
  pattern : String := ""
  description : String := ""
deriving DecidableEq, Repr

/-- `model.PackageManifest` from internal/model. -/
structure PackageManifest where
  schemaVersion : Nat := 0
  name : String := ""
  version : String := ""
  description : String := ""
  mcpServers : List (String × MCPServerSpec) := []
  setupCommands : List (String × SetupCommand) := []
deriving DecidableEq, Repr

/-- The distinct validation errors of `validateManifest`. -/
inductive ManifestErr where
  | missingName
  | missingVersion
  | noServers
  | emptyServerName
  | missingCommand (name : String)
  | missingURL (name : String)
  | unsupportedTransport (name : String) (transport : String)
  | emptyRun (envVar : String)
  | invalidPattern (envVar : String)
deriving DecidableEq, Repr

/-- `strings.TrimSpace`, modelled on the character list (kernel-computable). -/
def strTrim (s : String) : String := String.mk (trimChars s.data)

/-- The server loop of `validateManifest` (first failing entry wins). -/
def validateServers : List (String × MCPServerSpec) → Except ManifestErr Unit
  | [] => Except.ok ()
  | (name, server) :: rest =>
    if (strTrim name) = "" then Except.error ManifestErr.emptyServerName
    else if server.transport = ServerTransportSTDIO then
      if (strTrim server.command) = "" then Except.error (ManifestErr.missingCommand name)
      else validateServers rest
    else if server.transport = ServerTransportHTTP then
      if (strTrim server.url) = "" then Except.error (ManifestErr.missingURL name)
      else validateServers rest
    else Except.error (ManifestErr.unsupportedTransport name server.transport)

/-- The setup-command loop of `validateManifest`. `compileOk` abstracts
`regexp.Compile` succeeding on a pattern. -/
def validateSetupCommands (compileOk : String → Bool) :
    List (String × SetupCommand) → Except ManifestErr Unit
  | [] => Except.ok ()
  | (envVar, sc) :: rest =>
    if sc.run = [] then Except.error (ManifestErr.emptyRun envVar)
    else if sc.pattern ≠ "" ∧ compileOk sc.pattern = false then
      Except.error (ManifestErr.invalidPattern envVar)
    else validateSetupCommands compileOk rest

/-- `validateManifest` from internal/registry/registry.go. -/
def validateManifest (compileOk : String → Bool) (m : PackageManifest) :
    Except ManifestErr Unit :=
  if (strTrim m.name) = "" then Except.error ManifestErr.missingName
  else if (strTrim m.version) = "" then Except.error ManifestErr.missingVersion
  else if m.mcpServers = [] then Except.error ManifestErr.noServers
  else
    match validateServers m.mcpServers with
    | Except.error e => Except.error e
    | Except.ok _ => validateSetupCommands compileOk m.setupCommands

theorem validateServers_ok_iff (l : List (String × MCPServerSpec)) :
    validateServers l = Except.ok () ↔
      ∀ p ∈ l, (strTrim p.1) ≠ "" ∧
        (p.2.transport = ServerTransportSTDIO → (strTrim p.2.command) ≠ "") ∧
        (p.2.transport = ServerTransportHTTP → (strTrim p.2.url) ≠ "") ∧
        (p.2.transport = ServerTransportSTDIO ∨ p.2.transport = ServerTransportHTTP) := by
  induction l with
  | nil => simp [validateServers]
  | cons p rest ih =>
    obtain ⟨name, server⟩ := p
    constructor
    · intro h
      unfold validateServers at h
      by_cases h1 : (strTrim name) = ""
      · rw [if_pos h1] at h
        cases h
      · rw [if_neg h1] at h
        intro q hq
        by_cases h2 : server.transport = ServerTransportSTDIO
        · rw [if_pos h2] at h
          by_cases h3 : (strTrim server.command) = ""
          · rw [if_pos h3] at h
            cases h
          · rw [if_neg h3] at h
            rcases List.mem_cons.mp hq with rfl | hq2
            · exact ⟨h1, fun _ => h3, fun hh => absurd (h2.symm.trans hh) (by decide),
                Or.inl h2⟩
            · exact ih.mp h q hq2
        · rw [if_neg h2] at h
          by_cases h4 : server.transport = ServerTransportHTTP
          · rw [if_pos h4] at h
            by_cases h5 : (strTrim server.url) = ""
            · rw [if_pos h5] at h
              cases h
            · rw [if_neg h5] at h
              rcases List.mem_cons.mp hq with rfl | hq2
              · exact ⟨h1, fun hh => absurd hh h2, fun _ => h5, Or.inr h4⟩
              · exact ih.mp h q hq2
          · rw [if_neg h4] at h
            cases h
    · intro hall
      obtain ⟨h1, h2, h3, h4⟩ := hall (name, server) (List.mem_cons_self _ _)
      have hrest := ih.mpr (fun q hq => hall q (List.mem_cons_of_mem _ hq))
      unfold validateServers
      rw [if_neg h1]
      rcases h4 with h4 | h4
      · rw [if_pos h4, if_neg (h2 h4)]
        exact hrest
      · by_cases h5 : server.transport = ServerTransportSTDIO
        · rw [if_pos h5, if_neg (h2 h5)]
          exact hrest
        · rw [if_neg h5, if_pos h4, if_neg (h3 h4)]
          exact hrest

theorem validateSetupCommands_ok_iff (compileOk : String → Bool)
    (l : List (String × SetupCommand)) :
    validateSetupCommands compileOk l = Except.ok () ↔
      ∀ p ∈ l, p.2.run ≠ [] ∧ (p.2.pattern ≠ "" → compileOk p.2.pattern = true) := by
  induction l with
  | nil => simp [validateSetupCommands]
  | cons p rest ih =>
    obtain ⟨envVar, sc⟩ := p
    constructor
    · intro h
      unfold validateSetupCommands at h
      by_cases h1 : sc.run = []
      · rw [if_pos h1] at h
        cases h
      · rw [if_neg h1] at h
        by_cases h2 : sc.pattern ≠ "" ∧ compileOk sc.pattern = false
        · rw [if_pos h2] at h
          cases h
        · rw [if_neg h2] at h
          intro q hq
          rcases List.mem_cons.mp hq with rfl | hq2
          · refine ⟨h1, ?_⟩
            intro hp
            by_contra hco
            exact h2 ⟨hp, Bool.not_eq_true _ ▸ hco⟩
          · exact ih.mp h q hq2
    · intro hall
      obtain ⟨h1, h2⟩ := hall (envVar, sc) (List.mem_cons_self _ _)
      have hrest := ih.mpr (fun q hq => hall q (List.mem_cons_of_mem _ hq))
      unfold validateSetupCommands
      rw [if_neg h1, if_neg (by
        intro hh
        rw [h2 hh.1] at hh
        cases hh.2)]
      exact hrest

theorem validateManifest_ok_iff (compileOk : String → Bool) (m : PackageManifest) :
    validateManifest compileOk m = Except.ok () ↔
      (strTrim m.name) ≠ "" ∧ (strTrim m.version) ≠ "" ∧ m.mcpServers ≠ [] ∧
      (∀ p ∈ m.mcpServers, (strTrim p.1) ≠ "" ∧
        (p.2.transport = ServerTransportSTDIO → (strTrim p.2.command) ≠ "") ∧
        (p.2.transport = ServerTransportHTTP → (strTrim p.2.url) ≠ "") ∧
        (p.2.transport = ServerTransportSTDIO ∨ p.2.transport = ServerTransportHTTP)) ∧
      (∀ p ∈ m.setupCommands, p.2.run ≠ [] ∧
        (p.2.pattern ≠ "" → compileOk p.2.pattern = true)) := by
  unfold validateManifest
  by_cases h1 : (strTrim m.name) = ""
  · rw [if_pos h1]
    simp [h1]
  · rw [if_neg h1]
    by_cases h2 : (strTrim m.version) = ""
    · rw [if_pos h2]
      simp [h1, h2]
    · rw [if_neg h2]
      by_cases h3 : m.mcpServers = []
      · rw [if_pos h3]
        simp [h1, h2, h3]
      · rw [if_neg h3]
        cases hs : validateServers m.mcpServers with
        | error e =>
          constructor
          · intro h
            cases h
          · intro hall
            have := (validateServers_ok_iff m.mcpServers).mpr hall.2.2.2.1
            rw [hs] at this
            cases this
        | ok u =>
          cases u
          have hsrv := (validateServers_ok_iff m.mcpServers).mp hs
          rw [validateSetupCommands_ok_iff]
          constructor
          · intro hsc
            exact ⟨h1, h2, h3, hsrv, hsc⟩
          · intro hall
            exact hall.2.2.2.2

/-- C5: manifest validation rejects, each as an independent failing case:
empty/whitespace name, empty version, empty server map, empty server name,
stdio server with empty command, http server with empty url, unsupported
transport, setup command with empty run vector, setup command with a
non-compiling pattern; and a manifest with none of these defects passes. -/
theorem validateManifest_boundary_cases (compileOk : String → Bool)
    (m : PackageManifest) :
    ((strTrim m.name) = "" → validateManifest compileOk m ≠ Except.ok ()) ∧
    ((strTrim m.version) = "" → validateManifest compileOk m ≠ Except.ok ()) ∧
    (m.mcpServers = [] → validateManifest compileOk m ≠ Except.ok ()) ∧
    (∀ p ∈ m.mcpServers, (strTrim p.1) = "" →
      validateManifest compileOk m ≠ Except.ok ()) ∧
    (∀ p ∈ m.mcpServers, p.2.transport = ServerTransportSTDIO →
      (strTrim p.2.command) = "" → validateManifest compileOk m ≠ Except.ok ()) ∧
    (∀ p ∈ m.mcpServers, p.2.transport = ServerTransportHTTP →
      (strTrim p.2.url) = "" → validateManifest compileOk m ≠ Except.ok ()) ∧
    (∀ p ∈ m.mcpServers, p.2.transport ≠ ServerTransportSTDIO →
      p.2.transport ≠ ServerTransportHTTP →
      validateManifest compileOk m ≠ Except.ok ()) ∧
    (∀ p ∈ m.setupCommands, p.2.run = [] →
      validateManifest compileOk m ≠ Except.ok ()) ∧
    (∀ p ∈ m.setupCommands, p.2.pattern ≠ "" → compileOk p.2.pattern = false →
      validateManifest compileOk m ≠ Except.ok ()) ∧
    ((strTrim m.name) ≠ "" → (strTrim m.version) ≠ "" → m.mcpServers ≠ [] →
      (∀ p ∈ m.mcpServers, (strTrim p.1) ≠ "" ∧
        (p.2.transport = ServerTransportSTDIO → (strTrim p.2.command) ≠ "") ∧
        (p.2.transport = ServerTransportHTTP → (strTrim p.2.url) ≠ "") ∧
        (p.2.transport = ServerTransportSTDIO ∨ p.2.transport = ServerTransportHTTP)) →
      (∀ p ∈ m.setupCommands, p.2.run ≠ [] ∧
        (p.2.pattern ≠ "" → compileOk p.2.pattern = true)) →
      validateManifest compileOk m = Except.ok ()) := by
  have hiff := validateManifest_ok_iff compileOk m
  refine ⟨?_, ?_, ?_, ?_, ?_, ?_, ?_, ?_, ?_, ?_⟩
  · intro hd hok
    exact (hiff.mp hok).1 hd
  · intro hd hok
    exact (hiff.mp hok).2.1 hd
  · intro hd hok
    exact (hiff.mp hok).2.2.1 hd
  · intro p hp hd hok
    exact ((hiff.mp hok).2.2.2.1 p hp).1 hd
  · intro p hp htr hd hok
    exact ((hiff.mp hok).2.2.2.1 p hp).2.1 htr hd
  · intro p hp htr hd hok
    exact ((hiff.mp hok).2.2.2.1 p hp).2.2.1 htr hd
  · intro p hp h1 h2 hok
    rcases ((hiff.mp hok).2.2.2.1 p hp).2.2.2 with h | h
    · exact h1 h
    · exact h2 h
  · intro p hp hd hok
    exact ((hiff.mp hok).2.2.2.2 p hp).1 hd
  · intro p hp hpat hbad hok
    have := ((hiff.mp hok).2.2.2.2 p hp).2 hpat
    rw [hbad] at this
    cases this
  · intro h1 h2 h3 h4 h5
    exact hiff.mpr ⟨h1, h2, h3, h4, h5⟩

/-- A defect-free manifest for the C5 witness. -/
def manifestOkW : PackageManifest :=
  { name := "pkg", version := "1.0.0"
    mcpServers := [("srv", { transport := "stdio", command := "npx" })]
    setupCommands := [("TOKEN", { run := ["cmd"] })] }

/-- Witness for C5: the defect-free manifest passes validation. -/
theorem validateManifest_boundary_cases_witness :
    validateManifest (fun _ => true) manifestOkW = Except.ok () :=
  (validateManifest_boundary_cases (fun _ => true)
      manifestOkW).2.2.2.2.2.2.2.2.2
    (by decide) (by decide) (by decide) (by decide) (by decide)

/-! ### Persisted state (state package) -/

/-- `model.StateVersion`. -/
def StateVersion : Nat := 1

/-- `model.DefaultTapName`. -/
def DefaultTapName : String := "official"

/-- `model.DefaultTapURL`. -/
def DefaultTapURL : String := "https://github.com/sarjann/mcp-registry.git"

/-- `model.DefaultTapDescription`. -/
def DefaultTapDescription : String := "Official mcper registry"

/-- `model.TrustModeCosign`. -/
def TrustModeCosign : String := "cosign"

/-- `model.SourceTypeTap`. -/
def SourceTypeTap : String := "tap"

/-- `model.SourceTypeDirect`. -/
def SourceTypeDirect : String := "direct"

/-- `model.SigstoreIdentity`. -/
structure SigstoreIdentity where
  issuer : String := ""
  subject : String := ""
deriving DecidableEq, Repr

/-- `model.TapTrustConfig`. -/
structure TapTrustConfig where
  mode : String := ""
  identities : List SigstoreIdentity := []
deriving DecidableEq, Repr

/-- `model.TapConfig` (times as abstract `Nat` clocks). -/
structure TapConfig where
  name : String := ""
  url : String := ""
  description : String := ""
  trust : TapTrustConfig := {}
  createdAt : Nat := 0
  updatedAt : Nat := 0
deriving DecidableEq, Repr

/-- `model.TrustDecision`. -/
structure TrustDecision where
  url : String := ""
  approved : Bool := false
  createdAt : Nat := 0
deriving DecidableEq, Repr

/-- `model.SourceRef`. -/
structure SourceRef where
  type : String := ""
  tap : String := ""
  url : String := ""
deriving DecidableEq, Repr

/-- `model.InstalledPackage`. -/
structure InstalledPackage where
  name : String := ""
  version : String := ""
  description : String := ""
  source : SourceRef := {}
  manifestDigest : String := ""
  servers : List String := []
  targets : List String := []
  installedAt : Nat := 0
  updatedAt : Nat := 0
deriving DecidableEq, Repr

/-- `model.State` (in-memory form; Go nil maps are healed before use, so maps
are plain association lists here). -/
structure State where
  version : Nat := 0
  taps : List (String × TapConfig) := []
  installed : List (String × InstalledPackage) := []
  trustedDirectSources : List (String × TrustDecision) := []
deriving DecidableEq, Repr

/-- The default tap configuration built by `NewDefaultState`. -/
def defaultTapConfig (now : Nat) : TapConfig :=
  { name := DefaultTapName
    url := DefaultTapURL
    description := DefaultTapDescription
    trust := { mode := TrustModeCosign }
    createdAt := now
    updatedAt := now }

/-- `model.NewDefaultState` (with the wall clock as a parameter). -/
def NewDefaultState (now : Nat) : State :=
  { version := StateVersion
    taps := [(DefaultTapName, defaultTapConfig now)]
    installed := []
    trustedDirectSources := [] }

/-- The decoded form of the state file: absent JSON maps decode to nil,
modelled as `none`; a zero version decodes as 0. -/
structure StateDoc where
  version : Nat := 0
  taps : Option (List (String × TapConfig)) := none
  installed : Option (List (String × InstalledPackage)) := none
  trusted : Option (List (String × TrustDecision)) := none
deriving DecidableEq, Repr

/-- JSON encoding of a state (all maps present in the document). -/
def encodeState (st : State) : StateDoc :=
  { version := st.version
    taps := some st.taps
    installed := some st.installed
    trusted := some st.trustedDirectSources }

/-- `Store.Save` from internal/state: normalize (zero version becomes the
current schema version; nil maps become empty — vacuous in the list model)
and write the whole document. -/
def storeSave (st : State) : StateDoc :=
  encodeState { st with version := if st.version = 0 then StateVersion else st.version }

/-- `Store.Load` from internal/state, over an explicit optional file document:
a missing file becomes a freshly persisted default state; an existing document
is decoded and self-healed (zero version, missing maps, missing default tap).
Returns the state and the file contents after the call. -/
def storeLoad (file : Option StateDoc) (now : Nat) : State × Option StateDoc :=
  match file with
  | none =>
    let st := NewDefaultState now
    (st, some (storeSave st))
  | some doc =>
    let st : State :=
      { version := doc.version
        taps := doc.taps.getD []
        installed := doc.installed.getD []
        trustedDirectSources := doc.trusted.getD [] }
    let st := { st with version := if st.version = 0 then StateVersion else st.version }
    let st :=
      if (alookup st.taps DefaultTapName).isSome then st
      else { st with taps := ainsert st.taps DefaultTapName (defaultTapConfig now) }
    (st, some doc)

theorem storeLoad_some_fields (doc : StateDoc) (now : Nat) :
    (storeLoad (some doc) now).1.installed = doc.installed.getD [] ∧
    (storeLoad (some doc) now).1.trustedDirectSources = doc.trusted.getD [] ∧
    (storeLoad (some doc) now).1.version =
      (if doc.version = 0 then StateVersion else doc.version) ∧
    (storeLoad (some doc) now).1.taps =
      (if (alookup (doc.taps.getD []) DefaultTapName).isSome then doc.taps.getD []
       else ainsert (doc.taps.getD []) DefaultTapName (defaultTapConfig now)) ∧
    (storeLoad (some doc) now).2 = some doc := by
  simp only [storeLoad]
  by_cases hc : (alookup (doc.taps.getD []) DefaultTapName).isSome
  · simp [hc]
  · simp [hc]

/-- C7: loading with no state file creates, persists and returns the default
state (exactly the default tap, empty installed and trusted maps); loading an
existing document self-heals missing maps and a missing default tap; and
reloading a just-persisted default state returns it unchanged. -/
theorem storeLoad_default_and_selfheal (now now2 : Nat) (doc : StateDoc) :
    (storeLoad none now =
      (NewDefaultState now, some (storeSave (NewDefaultState now))) ∧
      (NewDefaultState now).taps = [(DefaultTapName, defaultTapConfig now)] ∧
      (NewDefaultState now).installed = [] ∧
      (NewDefaultState now).trustedDirectSources = []) ∧
    ((storeLoad (some doc) now).2 = some doc ∧
      (doc.installed = none → (storeLoad (some doc) now).1.installed = []) ∧
      (doc.trusted = none → (storeLoad (some doc) now).1.trustedDirectSources = []) ∧
      (doc.taps = none → (storeLoad (some doc) now).1.taps =
        [(DefaultTapName, defaultTapConfig now)]) ∧
      (∃ cfg, alookup (storeLoad (some doc) now).1.taps DefaultTapName = some cfg) ∧
      (doc.version = 0 → (storeLoad (some doc) now).1.version = StateVersion)) ∧
    storeLoad (some (storeSave (NewDefaultState now))) now2 =
      (NewDefaultState now, some (storeSave (NewDefaultState now))) := by
  obtain ⟨hinst, htru, hver, htaps, hfile⟩ := storeLoad_some_fields doc now
  refine ⟨⟨rfl, rfl, rfl, rfl⟩, ⟨hfile, ?_, ?_, ?_, ?_, ?_⟩, ?_⟩
  · intro h
    rw [hinst, h]
    rfl
  · intro h
    rw [htru, h]
    rfl
  · intro h
    rw [htaps, h]
    simp only [Option.getD_none]
    rw [if_neg (by simp [alookup])]
    rfl
  · rw [htaps]
    by_cases hc : (alookup (doc.taps.getD []) DefaultTapName).isSome
    · rw [if_pos hc]
      cases hl : alookup (doc.taps.getD []) DefaultTapName with
      | some cfg => exact ⟨cfg, rfl⟩
      | none =>
        rw [hl] at hc
        cases hc
    · rw [if_neg hc]
      refine ⟨defaultTapConfig now, ?_⟩
      rw [alookup_ainsert]
      simp
  · intro h
    rw [hver, h]
    rfl
  · rfl

/-- Witness for C7: a document with all maps missing self-heals to an empty
installed map. -/
theorem storeLoad_default_and_selfheal_witness :
    (storeLoad (some { version := 0 }) 5).1.installed = [] :=
  (storeLoad_default_and_selfheal 5 6 { version := 0 }).2.1.2.1 rfl

/-! ### Orchestrator (service package) -/

/-- The distinct error cases of the install orchestration paths. -/
inductive ServiceErr where
  | tapNotFound (name : String)
  | applyFailed (target : String)
  | nonInteractiveTrust
  | notTrusted
  | resolveFailed (msg : String)
deriving DecidableEq, Repr

/-- A config adapter as seen through the `adapters.Adapter` interface: its
observable server map plus a failure switch standing for an I/O error on
write (used to simulate a mid-install failure; a failing write leaves the
adapter's state unchanged, matching the atomic temp-file-then-rename write). -/
structure Adapter where
  servers : List (String × MCPServerSpec) := []
  failUpsert : Bool := false
deriving DecidableEq, Repr

/-- `Adapter.UpsertServers`: insert or overwrite every named server. -/
def Adapter.upsertServers (a : Adapter) (servers : List (String × MCPServerSpec)) :
    Except ServiceErr Adapter :=
  if a.failUpsert then Except.error (ServiceErr.resolveFailed "write failed")
  else Except.ok { a with servers := servers.foldl (fun m p => ainsert m p.1 p.2) a.servers }

/-- `Adapter.RemoveServers`: delete every named server. -/
def Adapter.removeServers (a : Adapter) (names : List String) : Adapter :=
  { a with servers := names.foldl aremove a.servers }

/-- `keys` from internal/service/manager.go: the sorted server names of a
manifest's server map. -/
def keys (m : List (String × MCPServerSpec)) : List String :=
  (m.map Prod.fst).insertionSort (fun a b => a ≤ b)

/-- The target loop of `applyInstall`: upsert into each target's adapter in
order; on the first failure, remove the manifest's server names from every
previously-succeeded target in reverse order (ignoring removal errors) and
surface the original error. Returns the final adapter map and the error. -/
def applyInstallGo (adapters : List (String × Adapter))
    (servers : List (String × MCPServerSpec)) :
    List String → List String → List (String × Adapter) × Option ServiceErr
  | _, [] => (adapters, none)
  | applied, t :: rest =>
    let a := (alookup adapters t).getD {}
    match a.upsertServers servers with
    | Except.error _ =>
      let rolled := applied.reverse.foldl
        (fun ad tn =>
          let b := (alookup ad tn).getD {}
          ainsert ad tn (b.removeServers (keys servers))) adapters
      (rolled, some (ServiceErr.applyFailed t))
    | Except.ok a2 =>
      applyInstallGo (ainsert adapters t a2) servers (applied ++ [t]) rest

/-- `applyInstall` from internal/service/manager.go (target resolution is
abstracted as the already-resolved target list): apply to every target with
rollback on failure, then build the updated ledger entry without persisting
it. -/
def applyInstall (adapters : List (String × Adapter)) (st : State)
    (manifest : PackageManifest) (digest : String) (source : SourceRef)
    (targets : List String) (now : Nat) :
    List (String × Adapter) × Except ServiceErr InstalledPackage :=
  match applyInstallGo adapters manifest.mcpServers [] targets with
  | (ad2, some e) => (ad2, Except.error e)
  | (ad2, none) =>
    let cur := (alookup st.installed manifest.name).getD {}
    let cur :=
      if cur.name = "" then { cur with name := manifest.name, installedAt := now }
      else cur
    let cur :=
      { cur with
        version := manifest.version
        description := manifest.description
        source := source
        manifestDigest := digest
        servers := keys manifest.mcpServers
        targets := targets
        updatedAt := now }
    (ad2, Except.ok cur)

/-- `InstallFromTap` from internal/service/manager.go. The registry
resolution is an oracle parameter (its network and verification behaviour is
outside this model); a successful resolution carries (manifest, digest,
resolved version). Returns the result, the state file after the call, and
the adapter map after the call. -/
def installFromTap (file : Option StateDoc) (adapters : List (String × Adapter))
    (tapName : String)
    (resolved : Except ServiceErr (PackageManifest × String × String))
    (targets : List String) (now : Nat) :
    Except ServiceErr InstalledPackage × Option StateDoc × List (String × Adapter) :=
  let lf := storeLoad file now
  let st := lf.1
  let file1 := lf.2
  let tapName2 := if tapName = "" then DefaultTapName else tapName
  match alookup st.taps tapName2 with
  | none => (Except.error (ServiceErr.tapNotFound tapName2), file1, adapters)
  | some tap =>
    match resolved with
    | Except.error e => (Except.error e, file1, adapters)
    | Except.ok (manifest, digest, version) =>
      match applyInstall adapters st manifest digest
          { type := SourceTypeTap, tap := tap.name } targets now with
      | (ad2, Except.error e) => (Except.error e, file1, ad2)
      | (ad2, Except.ok installed0) =>
        let installed :=
          { installed0 with
            version := version
            description := manifest.description
            source := { type := SourceTypeTap, tap := tap.name }
            manifestDigest := digest
            updatedAt := now }
        let installed :=
          if installed.installedAt = 0 then { installed with installedAt := now }
          else installed
        let st2 := { st with installed := ainsert st.installed manifest.name installed }
        (Except.ok installed, some (storeSave st2), ad2)

/-! ### Rollback restoration lemmas -/

/-- Inserting a key absent from the map appends it at the end. -/
theorem ainsert_eq_append {α : Type} (m : List (String × α)) (k : String) (v : α)
    (h : alookup m k = none) : ainsert m k v = m ++ [(k, v)] := by
  induction m with
  | nil => rfl
  | cons p rest ih =>
    obtain ⟨k', w⟩ := p
    simp only [alookup] at h
    by_cases hk : k' = k
    · rw [if_pos hk] at h
      cases h
    · rw [if_neg hk] at h
      simp only [ainsert, if_neg hk, List.cons_append]
      rw [ih h]

/-- Folding fresh, name-distinct insertions over a map appends the entries. -/
theorem foldl_ainsert_fresh {α : Type} (servers : List (String × α)) :
    ∀ (m : List (String × α)),
    (∀ p ∈ servers, alookup m p.1 = none) →
    (servers.map Prod.fst).Nodup →
    servers.foldl (fun acc p => ainsert acc p.1 p.2) m = m ++ servers := by
  induction servers with
  | nil => intro m _ _; simp
  | cons q rest ih =>
    intro m hfresh hnodup
    obtain ⟨n, s⟩ := q
    simp only [List.map_cons, List.nodup_cons] at hnodup
    have h2 : ∀ p ∈ rest, alookup (ainsert m n s) p.1 = none := by
      intro p hp
      rw [alookup_ainsert]
      have hne : ¬ n = p.1 := by
        intro he
        have hmm : p.1 ∈ List.map Prod.fst rest := List.mem_map_of_mem Prod.fst hp
        rw [← he] at hmm
        exact hnodup.1 hmm
      rw [if_neg hne]
      exact hfresh p (List.mem_cons_of_mem _ hp)
    simp only [List.foldl_cons]
    rw [ih (ainsert m n s) h2 hnodup.2]
    rw [ainsert_eq_append m n s (hfresh (n, s) (List.mem_cons_self _ _))]
    simp

/-- Folding `aremove` over a list of names filters out every entry whose key
occurs among the names. -/
theorem foldl_aremove_eq_filter {α : Type} (names : List String) :
    ∀ (m : List (String × α)),
    names.foldl aremove m = m.filter (fun p => decide (p.1 ∉ names)) := by
  induction names with
  | nil => intro m; simp
  | cons n ns ih =>
    intro m
    simp only [List.foldl_cons]
    rw [ih (aremove m n)]
    unfold aremove
    rw [List.filter_filter]
    apply List.filter_congr
    intro p _
    by_cases h1 : p.1 = n
    · simp [h1]
    · by_cases h2 : p.1 ∈ ns <;> simp [h1, h2]

/-- A member of `keys` is a server name and conversely. -/
theorem mem_keys_iff (servers : List (String × MCPServerSpec)) (x : String) :
    x ∈ keys servers ↔ x ∈ servers.map Prod.fst := by
  unfold keys
  exact (List.perm_insertionSort _ _).mem_iff

/-- Removing the manifest's server names after upserting them restores a map
on which none of those names were present, provided the names are distinct. -/
theorem removeServers_restore (m : List (String × MCPServerSpec))
    (servers : List (String × MCPServerSpec))
    (hfresh : ∀ p ∈ servers, alookup m p.1 = none)
    (hnodup : (servers.map Prod.fst).Nodup) :
    (keys servers).foldl aremove
      (servers.foldl (fun acc p => ainsert acc p.1 p.2) m) = m := by
  rw [foldl_ainsert_fresh servers m hfresh hnodup]
  rw [foldl_aremove_eq_filter]
  rw [List.filter_append]
  have h1 : m.filter (fun p => decide (p.1 ∉ keys servers)) = m := by
    apply List.filter_eq_self.mpr
    intro p hp
    simp only [decide_eq_true_iff, mem_keys_iff]
    intro hk
    obtain ⟨q, hq, hq1⟩ := List.mem_map.mp hk
    have hnone := hfresh q hq
    rw [hq1] at hnone
    obtain ⟨w, hw⟩ := alookup_of_mem m p.1 p.2 (by rw [Prod.mk.eta]; exact hp)
    rw [hnone] at hw
    cases hw
  have h2 : servers.filter (fun p => decide (p.1 ∉ keys servers)) = [] := by
    apply List.filter_eq_nil.mpr
    intro p hp
    simp only [decide_eq_true_iff, mem_keys_iff, not_not]
    exact List.mem_map_of_mem Prod.fst hp
  rw [h1, h2, List.append_nil]

/-- One successful step of the apply loop. -/
theorem applyInstallGo_cons_ok (adapters : List (String × Adapter))
    (servers : List (String × MCPServerSpec)) (applied : List String)
    (t : String) (rest : List String) (a a2 : Adapter)
    (ha : alookup adapters t = some a)
    (hup : a.upsertServers servers = Except.ok a2) :
    applyInstallGo adapters servers applied (t :: rest) =
      applyInstallGo (ainsert adapters t a2) servers (applied ++ [t]) rest := by
  have h0 : applyInstallGo adapters servers applied (t :: rest) =
      match ((alookup adapters t).getD {}).upsertServers servers with
      | Except.error _ =>
        (applied.reverse.foldl
          (fun ad tn =>
            ainsert ad tn (((alookup ad tn).getD {}).removeServers (keys servers)))
          adapters,
         some (ServiceErr.applyFailed t))
      | Except.ok a2 =>
        applyInstallGo (ainsert adapters t a2) servers (applied ++ [t]) rest := rfl
  rw [h0, ha]
  simp only [Option.getD_some]
  rw [hup]

/-- One failing step of the apply loop: roll back the applied targets in
reverse order and surface the failure. -/
theorem applyInstallGo_cons_err (adapters : List (String × Adapter))
    (servers : List (String × MCPServerSpec)) (applied : List String)
    (t : String) (rest : List String) (a : Adapter) (e : ServiceErr)
    (ha : alookup adapters t = some a)
    (hup : a.upsertServers servers = Except.error e) :
    applyInstallGo adapters servers applied (t :: rest) =
      (applied.reverse.foldl
        (fun ad tn =>
          ainsert ad tn (((alookup ad tn).getD {}).removeServers (keys servers)))
        adapters,
       some (ServiceErr.applyFailed t)) := by
  have h0 : applyInstallGo adapters servers applied (t :: rest) =
      match ((alookup adapters t).getD {}).upsertServers servers with
      | Except.error _ =>
        (applied.reverse.foldl
          (fun ad tn =>
            ainsert ad tn (((alookup ad tn).getD {}).removeServers (keys servers)))
          adapters,
         some (ServiceErr.applyFailed t))
      | Except.ok a2 =>
        applyInstallGo (ainsert adapters t a2) servers (applied ++ [t]) rest := rfl
  rw [h0, ha]
  simp only [Option.getD_some]
  rw [hup]

/-- After a load the default tap is always present (self-healing). -/
theorem storeLoad_default_tap (file : Option StateDoc) (now : Nat) :
    ∃ cfg, alookup (storeLoad file now).1.taps DefaultTapName = some cfg := by
  cases file with
  | none =>
    exact ⟨defaultTapConfig now, by simp [storeLoad, NewDefaultState, alookup]⟩
  | some doc =>
    obtain ⟨hinst, htru, hver, htaps, hfile⟩ := storeLoad_some_fields doc now
    rw [htaps]
    by_cases hc : (alookup (doc.taps.getD []) DefaultTapName).isSome
    · rw [if_pos hc]
      cases hl : alookup (doc.taps.getD []) DefaultTapName with
      | some cfg => exact ⟨cfg, rfl⟩
      | none =>
        rw [hl] at hc
        cases hc
    · rw [if_neg hc]
      refine ⟨defaultTapConfig now, ?_⟩
      rw [alookup_ainsert]
      simp

/-- C1: installing from a tap to two targets, where the first target's
adapter write succeeds and the second target's fails, rolls back by applying
`removeServers` with the manifest's (sorted) server names to the first
target, surfaces the failure on the second target as the returned error,
leaves the state file exactly as the load left it (no ledger update), and —
provided none of the manifest's server names already existed on the first
target and those names are distinct — leaves the first target's adapter in
its pre-install state. -/
theorem installFromTap_rollback
    (file : Option StateDoc) (adapters : List (String × Adapter))
    (t1 t2 : String) (a1 a2 : Adapter)
    (manifest : PackageManifest) (digest version : String) (now : Nat)
    (hne : t1 ≠ t2)
    (h1 : alookup adapters t1 = some a1) (hf1 : a1.failUpsert = false)
    (h2 : alookup adapters t2 = some a2) (hf2 : a2.failUpsert = true)
    (hfresh : ∀ p ∈ manifest.mcpServers, alookup a1.servers p.1 = none)
    (hnodup : (manifest.mcpServers.map Prod.fst).Nodup) :
    ∃ a1up rolled,
      a1.upsertServers manifest.mcpServers = Except.ok a1up ∧
      installFromTap file adapters "" (Except.ok (manifest, digest, version))
          [t1, t2] now =
        (Except.error (ServiceErr.applyFailed t2), (storeLoad file now).2, rolled) ∧
      alookup rolled t1 =
        some (a1up.removeServers (keys manifest.mcpServers)) ∧
      a1up.removeServers (keys manifest.mcpServers) = a1 := by
  obtain ⟨cfg, hcfg⟩ := storeLoad_default_tap file now
  have ha1 : a1.upsertServers manifest.mcpServers =
      Except.ok { a1 with servers :=
        manifest.mcpServers.foldl (fun m p => ainsert m p.1 p.2) a1.servers } := by
    unfold Adapter.upsertServers
    rw [hf1]
    rfl
  have ha2 : a2.upsertServers manifest.mcpServers =
      Except.error (ServiceErr.resolveFailed "write failed") := by
    unfold Adapter.upsertServers
    rw [hf2]
    rfl
  set a1up : Adapter :=
    { a1 with servers :=
        manifest.mcpServers.foldl (fun m p => ainsert m p.1 p.2) a1.servers }
    with ha1up
  have hlook1 : alookup (ainsert adapters t1 a1up) t1 = some a1up := by
    rw [alookup_ainsert]
    simp
  have hlook2 : alookup (ainsert adapters t1 a1up) t2 = some a2 := by
    rw [alookup_ainsert, if_neg hne]
    exact h2
  have hstep1 := applyInstallGo_cons_ok adapters manifest.mcpServers [] t1 [t2]
    a1 a1up h1 ha1
  have hstep2 := applyInstallGo_cons_err (ainsert adapters t1 a1up)
    manifest.mcpServers [t1] t2 [] a2 (ServiceErr.resolveFailed "write failed")
    hlook2 ha2
  have hroll : [t1].reverse.foldl
      (fun ad tn =>
        ainsert ad tn
          (((alookup ad tn).getD {}).removeServers (keys manifest.mcpServers)))
      (ainsert adapters t1 a1up) =
      ainsert (ainsert adapters t1 a1up) t1
        (a1up.removeServers (keys manifest.mcpServers)) := by
    simp only [List.reverse_singleton, List.foldl_cons, List.foldl_nil]
    rw [hlook1]
    rfl
  have hloop : applyInstallGo adapters manifest.mcpServers [] [t1, t2] =
      (ainsert (ainsert adapters t1 a1up) t1
        (a1up.removeServers (keys manifest.mcpServers)),
       some (ServiceErr.applyFailed t2)) := by
    rw [List.nil_append] at hstep1
    rw [hstep1, hstep2, hroll]
  have happly : ∀ (st : State) (source : SourceRef),
      applyInstall adapters st manifest digest source [t1, t2] now =
        (ainsert (ainsert adapters t1 a1up) t1
          (a1up.removeServers (keys manifest.mcpServers)),
         Except.error (ServiceErr.applyFailed t2)) := by
    intro st source
    unfold applyInstall
    rw [hloop]
  have h0 : installFromTap file adapters ""
      (Except.ok (manifest, digest, version)) [t1, t2] now =
      match alookup (storeLoad file now).1.taps DefaultTapName with
      | none =>
        (Except.error (ServiceErr.tapNotFound DefaultTapName),
         (storeLoad file now).2, adapters)
      | some tap =>
        match applyInstall adapters (storeLoad file now).1 manifest digest
            { type := SourceTypeTap, tap := tap.name } [t1, t2] now with
        | (ad2, Except.error e) => (Except.error e, (storeLoad file now).2, ad2)
        | (ad2, Except.ok installed0) =>
          let st := (storeLoad file now).1
          let installed :=
            { installed0 with
              version := version
              description := manifest.description
              source := { type := SourceTypeTap, tap := tap.name }
              manifestDigest := digest
              updatedAt := now }
          let installed :=
            if installed.installedAt = 0 then { installed with installedAt := now }
            else installed
          let st2 := { st with installed := ainsert st.installed manifest.name installed }
          (Except.ok installed, some (storeSave st2), ad2) := rfl
  refine ⟨a1up, ainsert (ainsert adapters t1 a1up) t1
    (a1up.removeServers (keys manifest.mcpServers)), ha1, ?_, ?_, ?_⟩
  · rw [h0]
    simp only [hcfg]
    rw [happly (storeLoad file now).1 { type := SourceTypeTap, tap := cfg.name }]
  · rw [alookup_ainsert]
    simp
  · simp only [Adapter.removeServers, ha1up]
    rw [removeServers_restore a1.servers manifest.mcpServers hfresh hnodup]

/-- A pre-existing server spec on the first target (counterexample data). -/
def cexSpecOld : MCPServerSpec := { transport := ServerTransportSTDIO, command := "old" }

/-- The manifest's spec for the same server name (counterexample data). -/
def cexSpecNew : MCPServerSpec := { transport := ServerTransportSTDIO, command := "new" }

/-- Two adapters: the first already has the server name `srv`, the second
fails its write (counterexample data). -/
def cexAdapters : List (String × Adapter) :=
  [("codex", { servers := [("srv", cexSpecOld)] }), ("claude", { failUpsert := true })]

/-- A manifest whose single server name collides with the first target's
pre-existing entry (counterexample data). -/
def cexManifest : PackageManifest :=
  { name := "pkg", version := "1.0.0", mcpServers := [("srv", cexSpecNew)] }

/-- C1 counterexample: when a manifest server name already exists on the
first target, the rollback's `removeServers` deletes the pre-existing entry
too, so the first target does NOT end in its pre-install state: it started
with server `srv` present and ends with an empty server map. -/
theorem installFromTap_rollback_counterexample :
    (installFromTap none cexAdapters "" (Except.ok (cexManifest, "d", "1.0.0"))
        ["codex", "claude"] 7).1 = Except.error (ServiceErr.applyFailed "claude") ∧
    alookup cexAdapters "codex" =
      some { servers := [("srv", cexSpecOld)], failUpsert := false } ∧
    alookup (installFromTap none cexAdapters ""
        (Except.ok (cexManifest, "d", "1.0.0")) ["codex", "claude"] 7).2.2 "codex" =
      some { servers := [], failUpsert := false } ∧
    ({ servers := [], failUpsert := false } : Adapter) ≠
      { servers := [("srv", cexSpecOld)], failUpsert := false } :=
  ⟨rfl, rfl, rfl, by decide⟩

/-- A concrete stdio spec (witness data). -/
def wSpec : MCPServerSpec := { transport := ServerTransportSTDIO, command := "run" }

/-- First target's adapter, holding only an unrelated server (witness data). -/
def wA1 : Adapter := { servers := [("other", wSpec)] }

/-- Second target's adapter, which fails its write (witness data). -/
def wA2 : Adapter := { failUpsert := true }

/-- The adapter map for the witness. -/
def wAdapters : List (String × Adapter) := [("codex", wA1), ("claude", wA2)]

/-- The manifest for the witness; its server name is fresh on `wA1`. -/
def wManifest : PackageManifest :=
  { name := "pkg", version := "1.0.0", mcpServers := [("srv", wSpec)] }

/-- Witness for C1 at a concrete two-target install with a fresh server
name. -/
theorem installFromTap_rollback_witness :
    ∃ a1up rolled,
      wA1.upsertServers wManifest.mcpServers = Except.ok a1up ∧
      installFromTap none wAdapters "" (Except.ok (wManifest, "d", "1.0.0"))
          ["codex", "claude"] 7 =
        (Except.error (ServiceErr.applyFailed "claude"), (storeLoad none 7).2, rolled) ∧
      alookup rolled "codex" = some (a1up.removeServers (keys wManifest.mcpServers)) ∧
      a1up.removeServers (keys wManifest.mcpServers) = wA1 :=
  installFromTap_rollback none wAdapters "codex" "claude" wA1 wA2 wManifest
    "d" "1.0.0" 7 (by decide) rfl rfl rfl rfl
    (by intro p hp
        simp only [wManifest, List.mem_singleton] at hp
        rw [hp]
        rfl)
    (by decide)

/-! ### Direct-URL installs and the trust gate -/

/-- `strings.EqualFold(strings.TrimSpace(resp), "yes")`. -/
def strEqualFoldYes (r : String) : Bool :=
  decide ((trimChars r.data).map Char.toLower = ['y', 'e', 's'])

/-- `promptTrust` from internal/service/manager.go: refuse outright when
stdin is not a character device (non-interactive), otherwise read an answer
and accept a case-insensitive, whitespace-trimmed "yes". The terminal check
and the read are modelled by the `interactive` flag and the `response`
string. -/
def promptTrust (interactive : Bool) (response : String) : Except ServiceErr Bool :=
  if interactive then Except.ok (strEqualFoldYes response)
  else Except.error ServiceErr.nonInteractiveTrust

/-- Record an approved trust decision for a URL in the in-memory state. -/
def recordTrust (st : State) (url : String) (now : Nat) : State :=
  { st with trustedDirectSources :=
      ainsert st.trustedDirectSources url { url := url, approved := true, createdAt := now } }

/-- The trust gate of `InstallFromURL`: an already-approved URL passes; an
unapproved one passes only with the `--yes` flag or an interactive "yes"
answer, and in both of those cases the approval is recorded in the state. -/
def trustGate (st : State) (url : String) (yes interactive : Bool)
    (response : String) (now : Nat) : Except ServiceErr State :=
  if ((alookup st.trustedDirectSources url).getD {}).approved then Except.ok st
  else if yes then Except.ok (recordTrust st url now)
  else
    match promptTrust interactive response with
    | Except.error e => Except.error e
    | Except.ok approved =>
      if approved then Except.ok (recordTrust st url now)
      else Except.error ServiceErr.notTrusted

/-- `InstallFromURL` from internal/service/manager.go: load the state, pass
the trust gate (recording a fresh approval when one is granted), resolve the
manifest from the URL (an oracle), apply to every target, update the ledger
entry and save. Returns the result, the state file after the call, and the
adapter map after the call. -/
def installFromURL (file : Option StateDoc) (adapters : List (String × Adapter))
    (interactive : Bool) (response : String) (url : String) (yes : Bool)
    (resolved : Except ServiceErr (PackageManifest × String))
    (targets : List String) (now : Nat) :
    Except ServiceErr InstalledPackage × Option StateDoc × List (String × Adapter) :=
  let lf := storeLoad file now
  let st := lf.1
  let file1 := lf.2
  match trustGate st url yes interactive response now with
  | Except.error e => (Except.error e, file1, adapters)
  | Except.ok st2 =>
    match resolved with
    | Except.error e => (Except.error e, file1, adapters)
    | Except.ok (manifest, digest) =>
      match applyInstall adapters st2 manifest digest
          { type := SourceTypeDirect, url := url } targets now with
      | (ad2, Except.error e) => (Except.error e, file1, ad2)
      | (ad2, Except.ok installed0) =>
        let installed :=
          { installed0 with
            version := manifest.version
            description := manifest.description
            source := { type := SourceTypeDirect, url := url }
            manifestDigest := digest
            updatedAt := now }
        let installed :=
          if installed.installedAt = 0 then { installed with installedAt := now }
          else installed
        let st3 := { st2 with installed := ainsert st2.installed manifest.name installed }
        (Except.ok installed, some (storeSave st3), ad2)

/-- One successful step of the apply loop (adapter looked up with its
zero-value default). -/
theorem applyInstallGo_cons_ok2 (adapters : List (String × Adapter))
    (servers : List (String × MCPServerSpec)) (applied : List String)
    (t : String) (rest : List String) (a2 : Adapter)
    (hup : ((alookup adapters t).getD {}).upsertServers servers = Except.ok a2) :
    applyInstallGo adapters servers applied (t :: rest) =
      applyInstallGo (ainsert adapters t a2) servers (applied ++ [t]) rest := by
  have h0 : applyInstallGo adapters servers applied (t :: rest) =
      match ((alookup adapters t).getD {}).upsertServers servers with
      | Except.error _ =>
        (applied.reverse.foldl
          (fun ad tn =>
            ainsert ad tn (((alookup ad tn).getD {}).removeServers (keys servers)))
          adapters,
         some (ServiceErr.applyFailed t))
      | Except.ok a2 =>
        applyInstallGo (ainsert adapters t a2) servers (applied ++ [t]) rest := rfl
  rw [h0, hup]

/-- When no target's adapter fails its write, the apply loop reports no
error. -/
theorem applyInstallGo_no_fail (servers : List (String × MCPServerSpec)) :
    ∀ (targets : List String) (applied : List String)
      (adapters : List (String × Adapter)),
    (∀ t ∈ targets, ((alookup adapters t).getD {}).failUpsert = false) →
    (applyInstallGo adapters servers applied targets).2 = none := by
  intro targets
  induction targets with
  | nil => intro applied adapters _; rfl
  | cons t rest ih =>
    intro applied adapters h
    have hex : ∃ a2, ((alookup adapters t).getD {}).upsertServers servers =
        Except.ok a2 ∧ a2.failUpsert = ((alookup adapters t).getD {}).failUpsert := by
      unfold Adapter.upsertServers
      rw [h t (List.mem_cons_self _ _)]
      exact ⟨_, rfl, rfl⟩
    obtain ⟨a2, hup, hfu⟩ := hex
    rw [applyInstallGo_cons_ok2 adapters servers applied t rest a2 hup]
    apply ih
    intro t' ht'
    rw [alookup_ainsert]
    by_cases he : t = t'
    · rw [if_pos he]
      simp only [Option.getD_some]
      rw [hfu]
      exact h t (List.mem_cons_self _ _)
    · rw [if_neg he]
      exact h t' (List.mem_cons_of_mem _ ht')

/-- When the apply loop reports no error, `applyInstall` returns a ledger
entry and the loop's final adapters. -/
theorem applyInstall_ok (adapters : List (String × Adapter)) (st : State)
    (manifest : PackageManifest) (digest : String) (source : SourceRef)
    (targets : List String) (now : Nat)
    (h : (applyInstallGo adapters manifest.mcpServers [] targets).2 = none) :
    ∃ cur, applyInstall adapters st manifest digest source targets now =
      ((applyInstallGo adapters manifest.mcpServers [] targets).1, Except.ok cur) := by
  unfold applyInstall
  cases hgo : applyInstallGo adapters manifest.mcpServers [] targets with
  | mk ad2 res =>
    rw [hgo] at h
    simp only at h
    subst h
    exact ⟨_, rfl⟩

/-- Saving and reloading a state preserves its trusted-sources map. -/
theorem storeLoad_save_trusted (st : State) (now2 : Nat) :
    (storeLoad (some (storeSave st)) now2).1.trustedDirectSources =
      st.trustedDirectSources := by
  have h := (storeLoad_some_fields (storeSave st) now2).2.1
  rw [h]
  rfl

/-- When the trust gate passes, a resolving direct-URL install with no
failing adapter writes succeeds, saves a state whose trusted map is the
gate's, and returns the loop's final adapters. -/
theorem installFromURL_success (file : Option StateDoc)
    (adapters : List (String × Adapter)) (interactive yes : Bool)
    (response url : String) (manifest : PackageManifest) (digest : String)
    (targets : List String) (now : Nat) (st2 : State)
    (hgate : trustGate (storeLoad file now).1 url yes interactive response now =
      Except.ok st2)
    (hok : ∀ t ∈ targets, ((alookup adapters t).getD {}).failUpsert = false) :
    ∃ installed st3,
      installFromURL file adapters interactive response url yes
          (Except.ok (manifest, digest)) targets now =
        (Except.ok installed, some (storeSave st3),
          (applyInstallGo adapters manifest.mcpServers [] targets).1) ∧
      st3.trustedDirectSources = st2.trustedDirectSources := by
  obtain ⟨cur, hap⟩ := applyInstall_ok adapters st2 manifest digest
    { type := SourceTypeDirect, url := url } targets now
    (applyInstallGo_no_fail manifest.mcpServers targets [] adapters hok)
  have h0 : installFromURL file adapters interactive response url yes
      (Except.ok (manifest, digest)) targets now =
      match trustGate (storeLoad file now).1 url yes interactive response now with
      | Except.error e => (Except.error e, (storeLoad file now).2, adapters)
      | Except.ok st2 =>
        match applyInstall adapters st2 manifest digest
            { type := SourceTypeDirect, url := url } targets now with
        | (ad2, Except.error e) => (Except.error e, (storeLoad file now).2, ad2)
        | (ad2, Except.ok installed0) =>
          let installed :=
            { installed0 with
              version := manifest.version
              description := manifest.description
              source := { type := SourceTypeDirect, url := url }
              manifestDigest := digest
              updatedAt := now }
          let installed :=
            if installed.installedAt = 0 then { installed with installedAt := now }
            else installed
          let st3 := { st2 with installed := ainsert st2.installed manifest.name installed }
          (Except.ok installed, some (storeSave st3), ad2) := rfl
  rw [h0]
  simp only [hgate]
  simp only [hap]
  refine ⟨_, _, rfl, rfl⟩

/-- When the trust gate refuses, a direct-URL install returns its error and
changes neither the state file nor the adapters. -/
theorem installFromURL_gate_err (file : Option StateDoc)
    (adapters : List (String × Adapter)) (interactive : Bool)
    (response url : String) (yes : Bool)
    (resolved : Except ServiceErr (PackageManifest × String))
    (targets : List String) (now : Nat) (e : ServiceErr)
    (hgate : trustGate (storeLoad file now).1 url yes interactive response now =
      Except.error e) :
    installFromURL file adapters interactive response url yes resolved targets now =
      (Except.error e, (storeLoad file now).2, adapters) := by
  have h0 : installFromURL file adapters interactive response url yes resolved
      targets now =
      match trustGate (storeLoad file now).1 url yes interactive response now with
      | Except.error e => (Except.error e, (storeLoad file now).2, adapters)
      | Except.ok st2 =>
        match resolved with
        | Except.error e => (Except.error e, (storeLoad file now).2, adapters)
        | Except.ok (manifest, digest) =>
          match applyInstall adapters st2 manifest digest
              { type := SourceTypeDirect, url := url } targets now with
          | (ad2, Except.error e) => (Except.error e, (storeLoad file now).2, ad2)
          | (ad2, Except.ok installed0) =>
            let installed :=
              { installed0 with version := manifest.version, description := manifest.description, source := { type := SourceTypeDirect, url := url }, manifestDigest := digest, updatedAt := now }
            let installed :=
              if installed.installedAt = 0 then { installed with installedAt := now }
              else installed
            let st3 := { st2 with installed := ainsert st2.installed manifest.name installed }
            (Except.ok installed, some (storeSave st3), ad2) := rfl
  rw [h0]
  simp only [hgate]

/-- An unapproved URL with neither flag nor prompt is refused
non-interactively. -/
theorem trustGate_noninteractive (st : State) (url response : String) (now : Nat)
    (hun : ((alookup st.trustedDirectSources url).getD {}).approved = false) :
    trustGate st url false false response now =
      Except.error ServiceErr.nonInteractiveTrust := by
  unfold trustGate promptTrust
  rw [hun]
  rfl

/-- An unapproved URL with an interactive answer that does not fold to
"yes" is refused. -/
theorem trustGate_not_yes (st : State) (url response : String) (now : Nat)
    (hun : ((alookup st.trustedDirectSources url).getD {}).approved = false)
    (hfold : strEqualFoldYes response = false) :
    trustGate st url false true response now = Except.error ServiceErr.notTrusted := by
  unfold trustGate promptTrust
  rw [hun, hfold]
  rfl

/-- An unapproved URL passes the gate with the flag or an interactive
folded "yes", and the approval is recorded in the state. -/
theorem trustGate_approves (st : State) (url response : String) (now : Nat)
    (yes interactive : Bool)
    (hun : ((alookup st.trustedDirectSources url).getD {}).approved = false)
    (happr : yes = true ∨ (interactive = true ∧ strEqualFoldYes response = true)) :
    trustGate st url yes interactive response now =
      Except.ok (recordTrust st url now) := by
  unfold trustGate promptTrust
  rw [hun]
  rcases happr with hyes | ⟨hint, hfold⟩
  · rw [hyes]
    rfl
  · rw [hint, hfold]
    cases yes
    · rfl
    · rfl

/-- C4: a direct-URL install with no prior approved trust decision for the
exact URL fails without the yes flag when no interactive "yes" answer is
obtained — in particular it fails non-interactively without the flag — and
leaves the state file and adapters untouched; on the first grant (the flag,
or an interactive answer folding to "yes") the approval for that URL is
recorded in the saved state, so a later install from the same URL on the
persisted state needs no further approval: it succeeds even
non-interactively without the flag. -/
theorem installFromURL_trust_gate (file : Option StateDoc)
    (adapters : List (String × Adapter)) (url response : String)
    (resolved : Except ServiceErr (PackageManifest × String))
    (targets : List String) (now : Nat)
    (hun : ((alookup (storeLoad file now).1.trustedDirectSources url).getD
      {}).approved = false) :
    (installFromURL file adapters false response url false resolved targets now =
      (Except.error ServiceErr.nonInteractiveTrust, (storeLoad file now).2,
        adapters)) ∧
    (strEqualFoldYes response = false →
      installFromURL file adapters true response url false resolved targets now =
        (Except.error ServiceErr.notTrusted, (storeLoad file now).2, adapters)) ∧
    (∀ (interactive yes : Bool) (manifest : PackageManifest) (digest : String),
      yes = true ∨ (interactive = true ∧ strEqualFoldYes response = true) →
      resolved = Except.ok (manifest, digest) →
      (∀ t ∈ targets, ((alookup adapters t).getD {}).failUpsert = false) →
      ∃ installed st3 ad2,
        installFromURL file adapters interactive response url yes resolved
            targets now =
          (Except.ok installed, some (storeSave st3), ad2) ∧
        alookup st3.trustedDirectSources url =
          some { url := url, approved := true, createdAt := now } ∧
        ∀ (response2 : String) (manifest2 : PackageManifest) (digest2 : String)
          (targets2 : List String) (now2 : Nat),
          (∀ t ∈ targets2, ((alookup ad2 t).getD {}).failUpsert = false) →
          ∃ installed2 st4 ad3,
            installFromURL (some (storeSave st3)) ad2 false response2 url false
                (Except.ok (manifest2, digest2)) targets2 now2 =
              (Except.ok installed2, some (storeSave st4), ad3)) := by
  refine ⟨?_, ?_, ?_⟩
  · exact installFromURL_gate_err file adapters false response url false resolved
      targets now ServiceErr.nonInteractiveTrust
      (trustGate_noninteractive (storeLoad file now).1 url response now hun)
  · intro hfold
    exact installFromURL_gate_err file adapters true response url false resolved
      targets now ServiceErr.notTrusted
      (trustGate_not_yes (storeLoad file now).1 url response now hun hfold)
  · intro interactive yes manifest digest happr hres hok
    subst hres
    obtain ⟨installed, st3, heq, htr3⟩ := installFromURL_success file adapters
      interactive yes response url manifest digest targets now
      (recordTrust (storeLoad file now).1 url now)
      (trustGate_approves (storeLoad file now).1 url response now yes interactive
        hun happr)
      hok
    have htr3' : alookup st3.trustedDirectSources url =
        some { url := url, approved := true, createdAt := now } := by
      rw [htr3]
      simp only [recordTrust]
      rw [alookup_ainsert]
      simp
    refine ⟨installed, st3,
      (applyInstallGo adapters manifest.mcpServers [] targets).1, heq, htr3', ?_⟩
    intro response2 manifest2 digest2 targets2 now2 h2ok
    have htr4 : ((alookup
        (storeLoad (some (storeSave st3)) now2).1.trustedDirectSources url).getD
        {}).approved = true := by
      rw [storeLoad_save_trusted, htr3']
      rfl
    have hg2 : trustGate (storeLoad (some (storeSave st3)) now2).1 url false false
        response2 now2 = Except.ok (storeLoad (some (storeSave st3)) now2).1 := by
      unfold trustGate
      rw [htr4]
      rfl
    obtain ⟨installed2, st4, heq2, _⟩ := installFromURL_success
      (some (storeSave st3))
      (applyInstallGo adapters manifest.mcpServers [] targets).1
      false false response2 url manifest2 digest2 targets2 now2
      (storeLoad (some (storeSave st3)) now2).1 hg2 h2ok
    exact ⟨installed2, st4, _, heq2⟩

/-- Adapter map for the direct-URL witness. -/
def uAdapters : List (String × Adapter) := [("codex", {})]

/-- Manifest for the direct-URL witness. -/
def uManifest : PackageManifest :=
  { name := "upkg", version := "1.0.0",
    mcpServers := [("usrv", { transport := ServerTransportSTDIO, command := "run" })] }

/-- Witness for C4 at a concrete unapproved URL, a non-"yes" answer and a
single healthy target. -/
theorem installFromURL_trust_gate_witness :
    (installFromURL none uAdapters false "no" "https://u" false
        (Except.ok (uManifest, "dd")) ["codex"] 3 =
      (Except.error ServiceErr.nonInteractiveTrust, (storeLoad none 3).2,
        uAdapters)) ∧
    (strEqualFoldYes "no" = false →
      installFromURL none uAdapters true "no" "https://u" false
          (Except.ok (uManifest, "dd")) ["codex"] 3 =
        (Except.error ServiceErr.notTrusted, (storeLoad none 3).2, uAdapters)) ∧
    (∀ (interactive yes : Bool) (manifest : PackageManifest) (digest : String),
      yes = true ∨ (interactive = true ∧ strEqualFoldYes "no" = true) →
      (Except.ok (uManifest, "dd") : Except ServiceErr (PackageManifest × String)) =
        Except.ok (manifest, digest) →
      (∀ t ∈ ["codex"], ((alookup uAdapters t).getD {}).failUpsert = false) →
      ∃ installed st3 ad2,
        installFromURL none uAdapters interactive "no" "https://u" yes
            (Except.ok (uManifest, "dd")) ["codex"] 3 =
          (Except.ok installed, some (storeSave st3), ad2) ∧
        alookup st3.trustedDirectSources "https://u" =
          some { url := "https://u", approved := true, createdAt := 3 } ∧
        ∀ (response2 : String) (manifest2 : PackageManifest) (digest2 : String)
          (targets2 : List String) (now2 : Nat),
          (∀ t ∈ targets2, ((alookup ad2 t).getD {}).failUpsert = false) →
          ∃ installed2 st4 ad3,
            installFromURL (some (storeSave st3)) ad2 false response2 "https://u"
                false (Except.ok (manifest2, digest2)) targets2 now2 =
              (Except.ok installed2, some (storeSave st4), ad3)) :=
  installFromURL_trust_gate none uAdapters "https://u" "no"
    (Except.ok (uManifest, "dd")) ["codex"] 3 rfl
